import Mathlib

/-!
# AstrBot-desktop: resource preparation scripts

A shallow embedding of `scripts/prepare-resources.mjs`,
`scripts/prepare-resources/version-sync.mjs` and the target table of
`scripts/prepare-resources/backend-runtime.mjs`.

JavaScript strings are modelled as lists of characters.  All the regular
expressions of the scripts are written without the `u` flag and only use
classes that treat both halves of a surrogate pair alike, so matching on code
points agrees with matching on UTF-16 code units for every well-formed string.
-/

set_option autoImplicit false

namespace AstrBotDesktop

/-- A JavaScript string. -/
abbrev Str := List Char

/-! ## String primitives of the host language -/

/-- The double quote character. -/
def dquote : Char := Char.ofNat 34

/-- The single quote character. -/
def squote : Char := Char.ofNat 39

/-- ECMAScript `WhiteSpace` and `LineTerminator` code points: the characters removed by
`String.prototype.trim` and matched by the class `\s`. -/
def isJsWhiteSpace (c : Char) : Bool :=
  c.toNat ∈ [9, 10, 11, 12, 13, 32, 160, 5760, 8232, 8233, 8239, 8287, 12288, 65279] ||
    (8192 ≤ c.toNat && c.toNat ≤ 8202)

/-- The class `\d` (without the `u` flag): the ten ASCII digits. -/
def isJsDigit (c : Char) : Bool :=
  48 ≤ c.toNat && c.toNat ≤ 57

/-- `String.prototype.trim`. -/
def trim (s : Str) : Str :=
  ((s.dropWhile isJsWhiteSpace).reverse.dropWhile isJsWhiteSpace).reverse

/-- `s.startsWith(p)`, returning the rest of `s` after the prefix `p`. -/
def dropPrefix? : Str → Str → Option Str
  | [], s => some s
  | _ :: _, [] => none
  | p :: ps, c :: cs => if p = c then dropPrefix? ps cs else none

/-! ## `version-sync.mjs`: normalizeDesktopVersionOverride -/

/-- The test `/^v\d/i.test(trimmed)`: the first character is `v` or `V` (the only characters
whose upper-case form is `V`) and the second is an ASCII digit. -/
def testLeadingV : Str → Bool
  | c :: d :: _ => (c == 'v' || c == 'V') && isJsDigit d
  | _ => false

/-- `normalizeDesktopVersionOverride(version)`.  The argument is `some s` for a string `s`
and `none` for a value of any other type (`typeof version !== 'string'`). -/
def normalizeDesktopVersionOverride (version : Option Str) : Str :=
  let trimmed := match version with
    | some s => trim s
    | none => []
  if trimmed = [] then []
  else if testLeadingV trimmed then trimmed.drop 1
  else trimmed

/-! ## The host: errors, files, paths -/

/-- What a rejected promise or a `throw` of the scripts carries. -/
inductive JsError
  /-- An `Error` constructed by the scripts: `throw new Error(message)`. -/
  | error (message : Str)
  /-- The rejection of `readFile(path)` for a missing file; the message of the host,
  `ENOENT: no such file or directory, open '<path>'`, names the path. -/
  | noSuchFile (path : Str)
  /-- The `SyntaxError` of `JSON.parse(text)`; its message is built from `text` alone. -/
  | jsonSyntax (text : Str)
  /-- A `TypeError` of the host: reading a property of `null`, or creating a property on a
  primitive value in strict mode. -/
  | typeError
  /-- A failure raised by a collaborator outside the scripts modelled here. -/
  | collaborator (message : Str)
  deriving DecidableEq, Repr

/-- The regular files of the host by path, with their text (files are read and written as
UTF-8 text). -/
abbrev Files := List (Str × Str)

/-- `existsSync(path)` and `readFile(path, 'utf8')`: the text of the file, if there is one. -/
def readText (files : Files) (path : Str) : Option Str :=
  files.lookup path

/-- `writeFile(path, text, 'utf8')`: replaces the text of the file or creates it. -/
def writeText (path text : Str) : Files → Files
  | [] => [(path, text)]
  | (p, t) :: rest =>
    if p = path then (path, text) :: rest else (p, t) :: writeText path text rest

/-- The pieces of a path between its separators `/`. -/
def splitOnSlash : Str → List Str
  | [] => [[]]
  | c :: rest =>
    if c = '/' then [] :: splitOnSlash rest
    else
      match splitOnSlash rest with
      | [] => [[c]]
      | s :: ss => (c :: s) :: ss

/-- `normalizeString` of `node:path`: the segments kept so far are in `kept`, last one
first.  An empty segment and `.` are dropped; `..` removes the last kept segment, unless
there is none or it is itself `..`, in which case it is kept when the path is relative
(`allowAboveRoot`) and dropped otherwise. -/
def normalizeSegments (allowAboveRoot : Bool) : List Str → List Str → List Str
  | kept, [] => kept.reverse
  | kept, seg :: rest =>
    if seg = [] ∨ seg = ['.'] then normalizeSegments allowAboveRoot kept rest
    else if seg = ['.', '.'] then
      match kept with
      | last :: before =>
        if last = ['.', '.'] then
          if allowAboveRoot then normalizeSegments allowAboveRoot (seg :: kept) rest
          else normalizeSegments allowAboveRoot kept rest
        else normalizeSegments allowAboveRoot before rest
      | [] =>
        if allowAboveRoot then normalizeSegments allowAboveRoot [seg] rest
        else normalizeSegments allowAboveRoot [] rest
    else normalizeSegments allowAboveRoot (seg :: kept) rest

/-- Segments joined with the separator `/`. -/
def joinSegments : List Str → Str
  | [] => []
  | [s] => s
  | s :: rest => s ++ '/' :: joinSegments rest

/-- `path.posix.normalize(path)`. -/
def posixNormalize (path : Str) : Str :=
  if path = [] then ['.']
  else
    let isAbsolute : Bool := path.head? = some '/'
    let trailingSeparator : Bool := path.getLast? = some '/'
    let res := joinSegments (normalizeSegments (!isAbsolute) [] (splitOnSlash path))
    if res = [] then
      if isAbsolute then ['/'] else if trailingSeparator then ['.', '/'] else ['.']
    else
      (if isAbsolute then ['/'] else []) ++ (res ++ (if trailingSeparator then ['/'] else []))

/-- `path.join(dir, ...segments)` of `node:path` on a POSIX host: the non-empty arguments
joined with `/`, then normalised. -/
def pathJoin (dir : Str) (segments : List Str) : Str :=
  if (dir :: segments).filter (fun s => s ≠ []) = [] then ['.']
  else posixNormalize (joinSegments ((dir :: segments).filter (fun s => s ≠ [])))

/-! ## `version-sync.mjs`: readAstrbotVersionFromPyproject -/

/-- `content.split(/\r?\n/)`: the text between the separators `\n` and `\r\n`.  A `\r`
right before a `\n` belongs to the separator: the lines of the rest already start with the
empty piece before that `\n`, which is the piece that ends at this `\r`. -/
def splitLines : Str → List Str
  | [] => [[]]
  | c :: rest =>
    if c = '\n' then [] :: splitLines rest
    else if c = '\r' ∧ rest.head? = some '\n' then splitLines rest
    else
      match splitLines rest with
      | [] => [[c]]
      | l :: ls => (c :: l) :: ls

/-- The class `["']`. -/
def isQuote (c : Char) : Bool :=
  c == dquote || c == squote

/-- `/^version\s*=\s*["']([^"']+)["']/.exec(line)`: the text captured by the group, when
the line matches.  Each greedy repetition is followed by a character outside its class, so
the only way to match takes the longest run. -/
def matchVersionLine (line : Str) : Option Str :=
  match dropPrefix? "version".toList line with
  | none => none
  | some afterKey =>
    match afterKey.dropWhile isJsWhiteSpace with
    | [] => none
    | e :: afterEq =>
      if e ≠ '=' then none
      else
        match afterEq.dropWhile isJsWhiteSpace with
        | [] => none
        | q :: afterQuote =>
          if isQuote q = false then none
          else
            match afterQuote.dropWhile (fun c => !isQuote c) with
            | [] => none
            | _ :: _ =>
              let value := afterQuote.takeWhile (fun c => !isQuote c)
              if value = [] then none else some value

/-- `line.startsWith('[') && line.endsWith(']')`. -/
def isSectionHeader (line : Str) : Bool :=
  line.head? = some '[' && line.getLast? = some ']'

/-- The loop of `readAstrbotVersionFromPyproject` over the remaining lines, with the
current value of `inProjectSection`; `none` when the loop ends without returning. -/
def scanPyproject : Bool → List Str → Option Str
  | _, [] => none
  | inProjectSection, rawLine :: rest =>
    let line := trim rawLine
    if line = [] ∨ line.head? = some '#' then
      scanPyproject inProjectSection rest
    else if isSectionHeader line then
      scanPyproject (line = "[project]".toList) rest
    else if !inProjectSection then
      scanPyproject inProjectSection rest
    else
      match matchVersionLine line with
      | some value => some (trim value)
      | none => scanPyproject inProjectSection rest

/-- `readAstrbotVersionFromPyproject({ sourceDir })` on the files of the host. -/
def readAstrbotVersionFromPyproject (files : Files) (sourceDir : Str) : Except JsError Str :=
  let pyprojectPath := pathJoin sourceDir ["pyproject.toml".toList]
  match readText files pyprojectPath with
  | none =>
    .error (.error ("Cannot find pyproject.toml in source directory: ".toList ++ sourceDir))
  | some content =>
    match scanPyproject false (splitLines content) with
    | some version => .ok version
    | none =>
      .error (.error ("Cannot resolve [project].version from ".toList ++ pyprojectPath))

/-! ### The manifest format, in the words of the specification -/

/-- A line of the form `version = "X"` (or with single quotes) whose value `X` is not empty
and holds no quote character of either kind; white space may surround the `=` and anything
may follow the closing quote. -/
def VersionLine (line X : Str) : Prop :=
  ∃ (w1 w2 rest : Str) (q1 q2 : Char),
    line = "version".toList ++ (w1 ++ ('=' :: (w2 ++ (q1 :: (X ++ (q2 :: rest)))))) ∧
    (∀ c ∈ w1, isJsWhiteSpace c = true) ∧ (∀ c ∈ w2, isJsWhiteSpace c = true) ∧
    isQuote q1 = true ∧ isQuote q2 = true ∧ X ≠ [] ∧ ∀ c ∈ X, isQuote c = false

/-- A line of the form `version = "X"` (or `'X'`) read literally: the value `X` is any text
between two quotes of the same kind that does not hold that quote. -/
def QuotedVersionLine (line X : Str) : Prop :=
  ∃ (w1 w2 rest : Str) (q : Char),
    line = "version".toList ++ (w1 ++ ('=' :: (w2 ++ (q :: (X ++ (q :: rest)))))) ∧
    (∀ c ∈ w1, isJsWhiteSpace c = true) ∧ (∀ c ∈ w2, isJsWhiteSpace c = true) ∧
    isQuote q = true ∧ q ∉ X

/-- Line `i` of the manifest lies inside the `[project]` section: some earlier line is the
header `[project]` and no line strictly between them is a section header (a line of the
form `[section-name]`). -/
def InProjectSection (lines : List Str) (i : Nat) : Prop :=
  ∃ h hdr, h < i ∧ lines[h]? = some hdr ∧ trim hdr = "[project]".toList ∧
    ∀ k l, h < k → k < i → lines[k]? = some l → isSectionHeader (trim l) = false

/-- The value of `inProjectSection` once the loop body has seen `rawLine`: a section
header sets it, every other line leaves it alone. -/
def nextInProjectSection (inProjectSection : Bool) (rawLine : Str) : Bool :=
  if isSectionHeader (trim rawLine) then decide (trim rawLine = "[project]".toList)
  else inProjectSection

/-- Line `i` lies inside the `[project]` section when the scan starts with the flag
`inProjectSection` already set to `start`: either the flag was set and no header precedes
line `i`, or a `[project]` header among the lines opens the section. -/
def InSectionFrom (start : Bool) (lines : List Str) (i : Nat) : Prop :=
  (start = true ∧ ∀ k l, k < i → lines[k]? = some l → isSectionHeader (trim l) = false) ∨
    InProjectSection lines i

/-- The value of `inProjectSection` when the loop reaches line `i`, having started with
`start`. -/
def sectionFlagAt (start : Bool) (lines : List Str) (i : Nat) : Bool :=
  (lines.take i).foldl nextInProjectSection start

/-- Line `i` is reached with `inProjectSection` set and matches the version pattern. -/
def projectVersionAt (lines : List Str) (i : Nat) : Bool :=
  sectionFlagAt false lines i && (matchVersionLine (trim (lines.getD i []))).isSome

/-- The table header a line holds when the manifest is read as TOML, where a comment may
follow the header on its line: the text before the first `#`, trimmed, when it begins with
`[` and ends with `]`. -/
def tomlTableHeader? (rawLine : Str) : Option Str :=
  if isSectionHeader (trim ((trim rawLine).takeWhile (fun c => c != '#'))) then
    some (trim ((trim rawLine).takeWhile (fun c => c != '#')))
  else none

/-- The table line `i` belongs to when the manifest is read as TOML: the last table header
before it, if any. -/
def tomlTableAt (lines : List Str) (i : Nat) : Option Str :=
  (lines.take i).foldl
    (fun current rawLine =>
      match tomlTableHeader? rawLine with
      | some header => some header
      | none => current)
    none

/-! ### Example manifests -/

/-- The manifest of the repository's test: a `[build-system]` section, then `[project]`
with its version. -/
def testPyproject : Str :=
  "\n[build-system]\nrequires = [\"setuptools\"]\n\n[project]\nname = \"astrbot\"\nversion = \"1.9.1\"\n".toList

/-- A manifest whose only version key belongs to another section. -/
def toolVersionPyproject : Str :=
  "[project]\nname = \"astrbot\"\n\n[tool.poetry]\nversion = \"9.9.9\"\n".toList

/-- A manifest whose only version key belongs to `[tool.poetry]`, a table whose header
line carries a comment. -/
def commentedHeaderPyproject : Str :=
  "[project]\nname = \"astrbot\"\n\n[tool.poetry]  # legacy metadata\nversion = \"9.9.9\"\n".toList

/-- A manifest whose `[project]` version holds an apostrophe between double quotes. -/
def apostrophePyproject : Str :=
  "[project]\nversion = \"it's\"\n".toList

/-- A manifest whose `[project]` version is the empty string. -/
def emptyVersionPyproject : Str :=
  "[project]\nversion = \"\"\n".toList

/-- A manifest whose `[project]` version carries a leading `v`. -/
def prefixedPyproject : Str :=
  "[project]\nname = \"astrbot\"\nversion = \"v1.2.3\"\n".toList

/-! ## `version-sync.mjs`: syncDesktopVersionFiles -/

/-- A value produced by `JSON.parse`.  A number keeps its source text: the scripts never
look at one. -/
inductive JsVal
  | null
  | bool (b : Bool)
  | number (text : Str)
  | string (s : Str)
  | array (items : List JsVal)
  /-- An object with its own properties in enumeration order. -/
  | object (members : List (Str × JsVal))

/-- The two JSON built-ins of the host, which are not part of the scripts:
`parse text` is `JSON.parse(text)` (`none` when it throws a `SyntaxError`) and
`stringify value` is `JSON.stringify(value, null, 2)`. -/
structure JsonCodec where
  parse : Str → Option JsVal
  stringify : JsVal → Str

/-- `value === version` for a string `version`. -/
def JsVal.isString (version : Str) : JsVal → Bool
  | .string s => s = version
  | _ => false

/-- `doc.version` for a parsed document: `ok none` is `undefined`.  Reading a property of
`null` throws; primitives and arrays have no `version` member. -/
def readVersion : JsVal → Except JsError (Option JsVal)
  | .null => .error .typeError
  | .object members => .ok (members.lookup "version".toList)
  | _ => .ok none

/-- Assignment to a member of an object: an existing member keeps its place, a new one
goes last. -/
def setMember (key : Str) (value : JsVal) : List (Str × JsVal) → List (Str × JsVal)
  | [] => [(key, value)]
  | (k, v) :: rest =>
    if k = key then (key, value) :: rest else (k, v) :: setMember key value rest

/-- `doc.version = version` in a module (strict mode), as seen by a later
`JSON.stringify`: an object gets the member; an array gets a property that is not an
element and is not serialised; a primitive cannot take a property and the assignment
throws. -/
def assignVersion (version : Str) : JsVal → Except JsError JsVal
  | .object members => .ok (.object (setMember "version".toList (.string version) members))
  | .array items => .ok (.array items)
  | _ => .error .typeError

/-- The files of the host together with the record of the `writeFile` calls made so far
(the paths written, oldest first). -/
structure World where
  files : Files
  writes : List Str
  deriving DecidableEq, Repr

/-- A `writeFile(path, text, 'utf8')` call. -/
def World.write (w : World) (path text : Str) : World :=
  { files := writeText path text w.files, writes := w.writes ++ [path] }

/-- The block `syncDesktopVersionFiles` runs for `package.json` and again for
`tauri.conf.json`: read, parse, compare `version`, and write back only when it differs. -/
def syncJsonVersion (json : JsonCodec) (path version : Str) (w : World) :
    Except JsError Unit × World :=
  match readText w.files path with
  | none => (.error (.noSuchFile path), w)
  | some text =>
    match json.parse text with
    | none => (.error (.jsonSyntax text), w)
    | some doc =>
      match readVersion doc with
      | .error e => (.error e, w)
      | .ok current =>
        if (current.map (JsVal.isString version)).getD false = true then (.ok (), w)
        else
          match assignVersion version doc with
          | .error e => (.error e, w)
          | .ok updated => (.ok (), w.write path (json.stringify updated ++ ['\n']))

/-- The end of `cargoVersionPattern` up to the opening quote, `\nversion\s*=\s*"`, matched
at the start of `s`: the text matched and the text after it. -/
def matchCargoHeader (s : Str) : Option (Str × Str) :=
  match dropPrefix? "\nversion".toList s with
  | none => none
  | some afterKey =>
    match afterKey.dropWhile isJsWhiteSpace with
    | [] => none
    | e :: afterEq =>
      if e ≠ '=' then none
      else
        match afterEq.dropWhile isJsWhiteSpace with
        | [] => none
        | q :: afterQuote =>
          if q ≠ dquote then none
          else
            some ("\nversion".toList ++ (afterKey.takeWhile isJsWhiteSpace
              ++ ('=' :: (afterEq.takeWhile isJsWhiteSpace ++ [dquote]))), afterQuote)

/-- The value part `[^"]+(")` matched at the start of `s`: the longest run of characters
other than the double quote, which must not be empty and must be followed by a double
quote; the value and the text after the closing quote. -/
def matchCargoValue (s : Str) : Option (Str × Str) :=
  match s.dropWhile (fun c => c != dquote) with
  | [] => none
  | _ :: after =>
    if s.takeWhile (fun c => c != dquote) = [] then none
    else some (s.takeWhile (fun c => c != dquote), after)

/-- The tail `\nversion\s*=\s*")[^"]+(")` of the pattern matched at the start of `s`:
header, value and the text after the closing quote. -/
def matchCargoVersionHere (s : Str) : Option (Str × Str × Str) :=
  match matchCargoHeader s with
  | none => none
  | some (header, afterQuote) =>
    match matchCargoValue afterQuote with
    | none => none
    | some (value, after) => some (header, value, after)

/-- The lazy `[\s\S]*?` followed by the tail of the pattern: the shortest text to skip
after which the tail matches.  Returns the skipped text, header, value and rest. -/
def matchCargoLazy : Str → Option (Str × Str × Str × Str)
  | [] => none
  | c :: rest =>
    match matchCargoVersionHere (c :: rest) with
    | some (header, value, after) => some ([], header, value, after)
    | none =>
      match matchCargoLazy rest with
      | some (skipped, header, value, after) => some (c :: skipped, header, value, after)
      | none => none

/-- A match of `cargoVersionPattern`,
`/(\[package\][\s\S]*?\nversion\s*=\s*")[^"]+(")/`, in a text that reads
`before ++ "[package]" ++ skipped ++ header ++ value ++ "\"" ++ after`: `skipped` is the
text taken by the lazy `[\s\S]*?`, `header` the text matched by `\nversion\s*=\s*"` and
`value` the text matched by `[^"]+`.  The second group is the closing quote. -/
structure CargoMatch where
  before : Str
  skipped : Str
  header : Str
  value : Str
  after : Str
  deriving DecidableEq, Repr

/-- The first group, `$1`: from `[package]` through the opening quote. -/
def CargoMatch.group1 (m : CargoMatch) : Str :=
  "[package]".toList ++ (m.skipped ++ m.header)

/-- The whole pattern matched at the start of `s`. -/
def matchCargoAt (s : Str) : Option (Str × Str × Str × Str) :=
  match dropPrefix? "[package]".toList s with
  | none => none
  | some rest => matchCargoLazy rest

/-- The first match of `cargoVersionPattern` in the text: the leftmost position at which
the pattern matches, found by trying each position in turn. -/
def execCargoVersionPattern : Str → Option CargoMatch
  | [] => none
  | c :: rest =>
    match matchCargoAt (c :: rest) with
    | some (skipped, header, value, after) => some ⟨[], skipped, header, value, after⟩
    | none =>
      match execCargoVersionPattern rest with
      | some m => some { m with before := c :: m.before }
      | none => none

/-- The backtick character. -/
def backtick : Char := Char.ofNat 96

/-- `GetSubstitution` of ECMAScript for a pattern with two capture groups, both matched:
expands `$$`, `$&`, the two context patterns, and the group references `$1`, `$2`, `$01`,
`$02` in a replacement template.  A two-digit reference to a group that does not exist is
read as a one-digit reference followed by a digit; any other `$` stands for itself. -/
def getSubstitution (matched before after g1 g2 : Str) : Str → Str
  | [] => []
  | c :: rest =>
    if c = '$' then
      match rest with
      | [] => ['$']
      | d :: rest1 =>
        if d = '$' then '$' :: getSubstitution matched before after g1 g2 rest1
        else if d = '&' then matched ++ getSubstitution matched before after g1 g2 rest1
        else if d = backtick then before ++ getSubstitution matched before after g1 g2 rest1
        else if d = squote then after ++ getSubstitution matched before after g1 g2 rest1
        else if d = '1' then g1 ++ getSubstitution matched before after g1 g2 rest1
        else if d = '2' then g2 ++ getSubstitution matched before after g1 g2 rest1
        else if d = '0' then
          match rest1 with
          | [] => ['$', '0']
          | e :: rest2 =>
            if e = '1' then g1 ++ getSubstitution matched before after g1 g2 rest2
            else if e = '2' then g2 ++ getSubstitution matched before after g1 g2 rest2
            else '$' :: '0' :: getSubstitution matched before after g1 g2 (e :: rest2)
        else '$' :: getSubstitution matched before after g1 g2 (d :: rest1)
    else c :: getSubstitution matched before after g1 g2 rest

/-- The text of `cargoToml.replace(cargoVersionPattern, "$1" + version + "$2")`, or `none`
when `cargoVersionPattern.test(cargoToml)` is false. -/
def replaceCargoVersion (cargoToml version : Str) : Option Str :=
  match execCargoVersionPattern cargoToml with
  | none => none
  | some m =>
    some (m.before ++ (getSubstitution (m.group1 ++ (m.value ++ [dquote])) m.before m.after
      m.group1 [dquote] ("$1".toList ++ (version ++ "$2".toList)) ++ m.after))

/-- `path.join(projectRoot, 'package.json')`. -/
def packageJsonPath (projectRoot : Str) : Str :=
  pathJoin projectRoot ["package.json".toList]

/-- `path.join(projectRoot, 'src-tauri', 'tauri.conf.json')`. -/
def tauriConfigPath (projectRoot : Str) : Str :=
  pathJoin projectRoot ["src-tauri".toList, "tauri.conf.json".toList]

/-- `path.join(projectRoot, 'src-tauri', 'Cargo.toml')`. -/
def cargoTomlPath (projectRoot : Str) : Str :=
  pathJoin projectRoot ["src-tauri".toList, "Cargo.toml".toList]

/-- The last block of `syncDesktopVersionFiles`: read `Cargo.toml`, test the pattern,
replace, and write back only when the text changed. -/
def syncCargoVersion (path version : Str) (w : World) : Except JsError Unit × World :=
  match readText w.files path with
  | none => (.error (.noSuchFile path), w)
  | some cargoToml =>
    match replaceCargoVersion cargoToml version with
    | none =>
      (.error (.error ("Cannot update Cargo package version in ".toList ++ path)), w)
    | some updatedCargoToml =>
      if updatedCargoToml ≠ cargoToml then (.ok (), w.write path updatedCargoToml)
      else (.ok (), w)

/-- `syncDesktopVersionFiles({ projectRoot, version })`: the outcome and the host after the
call (also when it throws). -/
def syncDesktopVersionFiles (json : JsonCodec) (projectRoot version : Str) (w : World) :
    Except JsError Unit × World :=
  match syncJsonVersion json (packageJsonPath projectRoot) version w with
  | (.error e, w1) => (.error e, w1)
  | (.ok _, w1) =>
    match syncJsonVersion json (tauriConfigPath projectRoot) version w1 with
    | (.error e, w2) => (.error e, w2)
    | (.ok _, w2) => syncCargoVersion (cargoTomlPath projectRoot) version w2

/-- The document at `path` parses and its `version` member is the string `version`. -/
def JsonVersionIs (json : JsonCodec) (files : Files) (path version : Str) : Prop :=
  ∃ text doc, readText files path = some text ∧ json.parse text = some doc ∧
    readVersion doc = .ok (some (.string version))

/-- The document at `path`, when it parses, is an object, and once its `version` member is
set to `version`, `JSON.parse` of the text `JSON.stringify` prints for it (with the line
break the script appends) is a document whose `version` member is that string. -/
def JsonObjectRoundTrip (json : JsonCodec) (files : Files) (path version : Str) : Prop :=
  ∀ text doc, readText files path = some text → json.parse text = some doc →
    ∃ members, doc = .object members ∧
      ∃ doc', json.parse (json.stringify
          (.object (setMember "version".toList (.string version) members)) ++ ['\n'])
          = some doc' ∧
        readVersion doc' = .ok (some (.string version))

/-- The texts `\nversion\s*=\s*"` matches: a line break, the key, an equals sign with
optional white space around it, and the opening quote. -/
def IsCargoHeader (header : Str) : Prop :=
  ∃ w1 w2 : Str, header = "\nversion".toList ++ (w1 ++ ('=' :: (w2 ++ [dquote]))) ∧
    (∀ c ∈ w1, isJsWhiteSpace c = true) ∧ (∀ c ∈ w2, isJsWhiteSpace c = true)

/-- The text around a match with `value` in place of the value matched. -/
def CargoMatch.withValue (m : CargoMatch) (value : Str) : Str :=
  m.before ++ (m.group1 ++ (value ++ dquote :: m.after))

/-- Reading the descriptor back: the quoted value of the version line that
`cargoVersionPattern` finds in the text. -/
def readCargoPackageVersion (cargoToml : Str) : Option Str :=
  (execCargoVersionPattern cargoToml).map (fun m => m.value)

/-- Whether the message of an error can name `path`.  The message of a script error is
its text; the host names the file it could not open; the `SyntaxError` of `JSON.parse`
quotes at most a piece of the text it was given; a `TypeError` names no file. -/
def JsError.namesPath (path : Str) : JsError → Bool
  | .error message => decide (path <:+: message)
  | .noSuchFile p => decide (path <:+: p)
  | .jsonSyntax text => decide (path <:+: text)
  | .typeError => false
  | .collaborator message => decide (path <:+: message)

/-! ## `prepare-resources.mjs`: the orchestrator -/

/-- What one invocation of the script reads from its process: the project root, the source
directory computed by `resolveSourceDir`, the environment variable
`ASTRBOT_DESKTOP_VERSION` and the mode argument `process.argv[2]`. -/
structure Invocation where
  projectRoot : Str
  sourceDir : Str
  desktopVersionEnv : Option Str
  modeArg : Option Str

/-- `process.env.ASTRBOT_DESKTOP_VERSION?.trim() || ''`. -/
def Invocation.desktopVersionOverrideRaw (inv : Invocation) : Str :=
  match inv.desktopVersionEnv with
  | some v => trim v
  | none => []

/-- `normalizeDesktopVersionOverride(desktopVersionOverrideRaw)`. -/
def Invocation.desktopVersionOverride (inv : Invocation) : Str :=
  normalizeDesktopVersionOverride (some inv.desktopVersionOverrideRaw)

/-- `process.argv[2] || 'all'`. -/
def Invocation.mode (inv : Invocation) : Str :=
  match inv.modeArg with
  | some m => if m = [] then "all".toList else m
  | none => "all".toList

/-- The collaborators of the orchestrator that live outside the scripts modelled here
(`node:fs` and the modules `source-repo.mjs` and `mode-tasks.mjs`): each either throws or
leaves the host in a new state. -/
structure Collaborators where
  mkdirResources : World → Except JsError World
  ensureSourceRepo : World → Except JsError World
  ensureStartupShellAssets : World → Except JsError World
  prepareWebui : World → Except JsError World
  prepareBackend : World → Except JsError World

/-- The calls `main` makes, in the order of the record of a run. -/
inductive Call
  | mkdirResources
  | ensureSourceRepo
  | ensureStartupShellAssets
  | readAstrbotVersionFromPyproject
  | syncDesktopVersionFiles (version : Str)
  | prepareWebui
  | prepareBackend
  deriving DecidableEq, Repr

/-- A run of a part of the script: the calls made, whether it threw, and the host after
it. -/
structure Run where
  calls : List Call
  outcome : Except JsError Unit
  world : World

/-- Sequencing: the rest of the script runs only when the first part did not throw. -/
def Run.andThen (r : Run) (next : World → Run) : Run :=
  match r.outcome with
  | .error _ => r
  | .ok _ =>
    { calls := r.calls ++ (next r.world).calls
      outcome := (next r.world).outcome
      world := (next r.world).world }

/-- A run that does nothing. -/
def Run.skip (w : World) : Run :=
  ⟨[], .ok (), w⟩

/-- A call of a collaborator. -/
def callCollaborator (call : Call) (f : World → Except JsError World) (w : World) : Run :=
  match f w with
  | .error e => ⟨[call], .error e, w⟩
  | .ok w' => ⟨[call], .ok (), w'⟩

/-- A call of `readAstrbotVersionFromPyproject({ sourceDir })` whose value is only compared
with the override (the drift warning is console output). -/
def callReadVersion (sourceDir : Str) (w : World) : Run :=
  match readAstrbotVersionFromPyproject w.files sourceDir with
  | .error e => ⟨[.readAstrbotVersionFromPyproject], .error e, w⟩
  | .ok _ => ⟨[.readAstrbotVersionFromPyproject], .ok (), w⟩

/-- A call of `syncDesktopVersionFiles({ projectRoot, version })`. -/
def callSync (json : JsonCodec) (projectRoot version : Str) (w : World) : Run :=
  ⟨[.syncDesktopVersionFiles version], (syncDesktopVersionFiles json projectRoot version w).1,
    (syncDesktopVersionFiles json projectRoot version w).2⟩

/-- `runModeTasks(currentMode, sourceDir)`. -/
def runModeTasks (ext : Collaborators) (currentMode : Str) (w : World) : Run :=
  if currentMode = "version".toList then Run.skip w
  else if currentMode = "webui".toList then callCollaborator .prepareWebui ext.prepareWebui w
  else if currentMode = "backend".toList then
    callCollaborator .prepareBackend ext.prepareBackend w
  else if currentMode = "all".toList then
    (callCollaborator .prepareWebui ext.prepareWebui w).andThen
      (callCollaborator .prepareBackend ext.prepareBackend)
  else
    ⟨[], .error (.error ("Unsupported mode: ".toList ++ currentMode
      ++ ". Expected version/webui/backend/all.".toList)), w⟩

/-- `main()`. -/
def main (ext : Collaborators) (json : JsonCodec) (inv : Invocation) (w : World) : Run :=
  let desktopVersionOverride := inv.desktopVersionOverride
  let needsSourceRepo : Bool :=
    decide (inv.mode ≠ "version".toList) || decide (desktopVersionOverride = [])
  (callCollaborator .mkdirResources ext.mkdirResources w).andThen fun w =>
  (if needsSourceRepo then callCollaborator .ensureSourceRepo ext.ensureSourceRepo w
    else Run.skip w).andThen fun w =>
  (callCollaborator .ensureStartupShellAssets ext.ensureStartupShellAssets w).andThen fun w =>
  if desktopVersionOverride ≠ [] then
    (if needsSourceRepo then callReadVersion inv.sourceDir w else Run.skip w).andThen fun w =>
    (callSync json inv.projectRoot desktopVersionOverride w).andThen fun w =>
    runModeTasks ext inv.mode w
  else
    match readAstrbotVersionFromPyproject w.files inv.sourceDir with
    | .error e => ⟨[.readAstrbotVersionFromPyproject], .error e, w⟩
    | .ok astrbotVersion =>
      (⟨[.readAstrbotVersionFromPyproject], .ok (), w⟩ : Run).andThen fun w =>
      (callSync json inv.projectRoot astrbotVersion w).andThen fun w =>
      runModeTasks ext inv.mode w

/-! ## A JSON codec for the examples -/

/-- The states of `flatJsonParse`. -/
inductive FlatState
  | start
  | openArray
  | afterOpen
  | expectKey
  | inKey (acc : Str)
  | expectColon (key : Str)
  | expectValue (key : Str)
  | inValue (key acc : Str)
  | afterValue
  | done (isArray : Bool)

/-- JSON white space. -/
def isJsonWs (c : Char) : Bool :=
  c == ' ' || c == '\n' || c == '\r' || c == '\t'

/-- A character that may stand for itself inside a JSON string. -/
def isPlainJsonChar (c : Char) : Bool :=
  c != dquote && c != '\\' && 32 ≤ c.toNat

/-- A reader for the JSON texts of the examples: an object whose members are strings
written without escapes, or the empty array.  Any other text is rejected. -/
def flatJsonParse : FlatState → List (Str × JsVal) → Str → Option JsVal
  | .done isArray, members, [] => some (if isArray then .array [] else .object members)
  | _, _, [] => none
  | st, members, c :: rest =>
    match st with
    | .start =>
      if isJsonWs c then flatJsonParse .start members rest
      else if c = '{' then flatJsonParse .afterOpen members rest
      else if c = '[' then flatJsonParse .openArray members rest
      else none
    | .openArray =>
      if isJsonWs c then flatJsonParse .openArray members rest
      else if c = ']' then flatJsonParse (.done true) members rest
      else none
    | .afterOpen =>
      if isJsonWs c then flatJsonParse .afterOpen members rest
      else if c = '}' then flatJsonParse (.done false) members rest
      else if c = dquote then flatJsonParse (.inKey []) members rest
      else none
    | .expectKey =>
      if isJsonWs c then flatJsonParse .expectKey members rest
      else if c = dquote then flatJsonParse (.inKey []) members rest
      else none
    | .inKey acc =>
      if c = dquote then flatJsonParse (.expectColon acc.reverse) members rest
      else if isPlainJsonChar c then flatJsonParse (.inKey (c :: acc)) members rest
      else none
    | .expectColon key =>
      if isJsonWs c then flatJsonParse (.expectColon key) members rest
      else if c = ':' then flatJsonParse (.expectValue key) members rest
      else none
    | .expectValue key =>
      if isJsonWs c then flatJsonParse (.expectValue key) members rest
      else if c = dquote then flatJsonParse (.inValue key []) members rest
      else none
    | .inValue key acc =>
      if c = dquote then
        flatJsonParse .afterValue (setMember key (.string acc.reverse) members) rest
      else if isPlainJsonChar c then flatJsonParse (.inValue key (c :: acc)) members rest
      else none
    | .afterValue =>
      if isJsonWs c then flatJsonParse .afterValue members rest
      else if c = ',' then flatJsonParse .expectKey members rest
      else if c = '}' then flatJsonParse (.done false) members rest
      else none
    | .done isArray =>
      if isJsonWs c then flatJsonParse (.done isArray) members rest else none

/-- One member of an object as `JSON.stringify(value, null, 2)` prints it, for a string
value written without escapes. -/
def flatJsonMember : Str × JsVal → Str
  | (k, .string v) => "  \"".toList ++ k ++ "\": \"".toList ++ v ++ "\"".toList
  | (k, _) => "  \"".toList ++ k ++ "\": null".toList

/-- The members of a non-empty object, separated by a comma and a line break. -/
def flatJsonMembers : List (Str × JsVal) → Str
  | [] => []
  | [m] => flatJsonMember m
  | m :: rest => flatJsonMember m ++ ",\n".toList ++ flatJsonMembers rest

/-- A printer for the values of the examples, with the layout of
`JSON.stringify(value, null, 2)`. -/
def flatJsonStringify : JsVal → Str
  | .object [] => "\x7b\x7d".toList
  | .object members => "\x7b\n".toList ++ flatJsonMembers members ++ "\n\x7d".toList
  | .string s => dquote :: (s ++ [dquote])
  | .number text => text
  | .bool true => "true".toList
  | .bool false => "false".toList
  | .null => "null".toList
  | .array _ => "[]".toList

/-- The JSON built-ins restricted to the texts and values of the examples (flat objects of
plain strings and the empty array), on which they agree with the host. -/
def flatJson : JsonCodec where
  parse := flatJsonParse .start []
  stringify := flatJsonStringify

/-! ### Example project roots -/

/-- The project of the repository's test, under `/app`, at version `0.1.0`. -/
def testProject : World :=
  { files :=
      [("/app/package.json".toList,
        "\x7b\n  \"name\": \"test\",\n  \"version\": \"0.1.0\"\n\x7d\n".toList),
       ("/app/src-tauri/tauri.conf.json".toList, "\x7b\n  \"version\": \"0.1.0\"\n\x7d\n".toList),
       ("/app/src-tauri/Cargo.toml".toList,
        "[package]\nname = \"astrbot-desktop-tauri\"\nversion = \"0.1.0\"\n".toList)]
    writes := [] }

/-- The project of the repository's test after synchronisation to `2.3.4`. -/
def testProjectSynced : World :=
  { files :=
      [("/app/package.json".toList,
        "\x7b\n  \"name\": \"test\",\n  \"version\": \"2.3.4\"\n\x7d\n".toList),
       ("/app/src-tauri/tauri.conf.json".toList, "\x7b\n  \"version\": \"2.3.4\"\n\x7d\n".toList),
       ("/app/src-tauri/Cargo.toml".toList,
        "[package]\nname = \"astrbot-desktop-tauri\"\nversion = \"2.3.4\"\n".toList)]
    writes := ["/app/package.json".toList, "/app/src-tauri/tauri.conf.json".toList,
      "/app/src-tauri/Cargo.toml".toList] }

/-- A `Cargo.toml` whose package inherits its version from the workspace, so that the
`[package]` section has no `version = "..."` line, followed by a dependency table that
has one. -/
def workspaceCargoToml : Str :=
  "[package]\nname = \"astrbot-desktop-tauri\"\nversion.workspace = true\n\n[dependencies.tauri]\nversion = \"2\"\nfeatures = []\n".toList

/-- The test project with a `tauri.conf.json` that is not valid JSON (a trailing comma). -/
def brokenTauriProject : World :=
  { files :=
      [("/app/package.json".toList,
        "\x7b\n  \"name\": \"test\",\n  \"version\": \"0.1.0\"\n\x7d\n".toList),
       ("/app/src-tauri/tauri.conf.json".toList,
        "\x7b\n  \"version\": \"0.1.0\",\n\x7d\n".toList),
       ("/app/src-tauri/Cargo.toml".toList,
        "[package]\nname = \"astrbot-desktop-tauri\"\nversion = \"0.1.0\"\n".toList)]
    writes := [] }

/-- The test project with a `package.json` whose document is the empty array. -/
def arrayPackageProject : World :=
  { files :=
      [("/app/package.json".toList, "[]\n".toList),
       ("/app/src-tauri/tauri.conf.json".toList, "\x7b\n  \"version\": \"0.1.0\"\n\x7d\n".toList),
       ("/app/src-tauri/Cargo.toml".toList,
        "[package]\nname = \"astrbot-desktop-tauri\"\nversion = \"0.1.0\"\n".toList)]
    writes := [] }

/-- The `Cargo.toml` of the test project. -/
def testCargoToml : Str :=
  "[package]\nname = \"astrbot-desktop-tauri\"\nversion = \"0.1.0\"\n".toList

/-! ### Example invocations -/

/-- Collaborators that succeed and leave the host as it is (a source tree that is already
in place, resources already prepared). -/
def idleCollaborators : Collaborators where
  mkdirResources := fun w => .ok w
  ensureSourceRepo := fun w => .ok w
  ensureStartupShellAssets := fun w => .ok w
  prepareWebui := fun w => .ok w
  prepareBackend := fun w => .ok w

/-- Mode `all` with `ASTRBOT_DESKTOP_VERSION=v2.3.4`. -/
def overrideAllInvocation : Invocation :=
  { projectRoot := "/app".toList
    sourceDir := "/app/vendor/AstrBot".toList
    desktopVersionEnv := some "v2.3.4".toList
    modeArg := some "all".toList }

/-- Mode `version` with `ASTRBOT_DESKTOP_VERSION=v2.3.4`. -/
def overrideVersionInvocation : Invocation :=
  { projectRoot := "/app".toList
    sourceDir := "/app/vendor/AstrBot".toList
    desktopVersionEnv := some "v2.3.4".toList
    modeArg := some "version".toList }

/-- Mode `version` without an override. -/
def manifestVersionInvocation : Invocation :=
  { projectRoot := "/app".toList
    sourceDir := "/app/vendor/AstrBot".toList
    desktopVersionEnv := none
    modeArg := some "version".toList }

/-- The test project with an upstream manifest whose version is written `v1.2.3`. -/
def prefixedSourceProject : World :=
  { files := ("/app/vendor/AstrBot/pyproject.toml".toList, prefixedPyproject)
      :: testProject.files
    writes := [] }

/-! ## `backend-runtime.mjs`: resolvePbsTarget -/

/-- The outcome of reading `literal[key]` on an object literal. -/
inductive Lookup
  /-- An own property of the literal, with its string value. -/
  | own (value : Str)
  /-- A member inherited from `Object.prototype` (a function or an object: truthy). -/
  | inherited (key : Str)
  /-- No such property: `undefined`. -/
  | undefined
  deriving DecidableEq, Repr

/-- The property names every object literal inherits from `Object.prototype`. -/
def objectPrototypeKeys : List Str :=
  ["constructor".toList, "__proto__".toList, "hasOwnProperty".toList,
   "isPrototypeOf".toList, "propertyIsEnumerable".toList, "toLocaleString".toList,
   "toString".toList, "valueOf".toList, "__defineGetter__".toList,
   "__defineSetter__".toList, "__lookupGetter__".toList, "__lookupSetter__".toList]

/-- `literal[key]` for an object literal given by its own string-valued properties. -/
def getProperty (literal : List (Str × Str)) (key : Str) : Lookup :=
  match literal.lookup key with
  | some v => .own v
  | none => if key ∈ objectPrototypeKeys then .inherited key else .undefined

/-- `!value` for the outcome of a property read: an own string is falsy when empty,
an inherited member is always truthy, `undefined` is falsy. -/
def Lookup.falsy : Lookup → Bool
  | .own v => v.isEmpty
  | .inherited _ => false
  | .undefined => true

/-- The text a template literal inserts for the outcome of a property read. -/
def Lookup.toText : Lookup → Str
  | .own v => v
  | .inherited k =>
    if k = "__proto__".toList then "[object Object]".toList
    else if k = "constructor".toList then "function Object() \x7b [native code] \x7d".toList
    else "function ".toList ++ k ++ "() \x7b [native code] \x7d".toList
  | .undefined => "undefined".toList

def platformMap : List (Str × Str) :=
  [("linux".toList, "linux".toList),
   ("darwin".toList, "mac".toList),
   ("win32".toList, "windows".toList)]

def archMap : List (Str × Str) :=
  [("x64".toList, "amd64".toList),
   ("arm64".toList, "arm64".toList)]

def targetMap : List (Str × Str) :=
  [("linux/amd64".toList, "x86_64-unknown-linux-gnu".toList),
   ("linux/arm64".toList, "aarch64-unknown-linux-gnu".toList),
   ("mac/amd64".toList, "x86_64-apple-darwin".toList),
   ("mac/arm64".toList, "aarch64-apple-darwin".toList),
   ("windows/amd64".toList, "x86_64-pc-windows-msvc".toList),
   ("windows/arm64".toList, "aarch64-pc-windows-msvc".toList)]

/-- `resolvePbsTarget()`, as a function of `process.platform` and `process.arch`.  An error
carries the message of the `Error` thrown. -/
def resolvePbsTarget (platform arch : Str) : Except Str Lookup :=
  let normalizedPlatform := getProperty platformMap platform
  let normalizedArch := getProperty archMap arch
  if normalizedPlatform.falsy || normalizedArch.falsy then
    .error ("Unsupported platform/arch for python-build-standalone: ".toList
      ++ platform ++ "/".toList ++ arch)
  else
    let key := normalizedPlatform.toText ++ "/".toList ++ normalizedArch.toText
    let target := getProperty targetMap key
    if target.falsy then
      .error ("Unsupported python-build-standalone mapping: ".toList ++ key)
    else
      .ok target

/-- The six supported `(process.platform, process.arch)` pairs with their targets. -/
def pbsTargetTable : List ((Str × Str) × Str) :=
  [(("linux".toList, "x64".toList), "x86_64-unknown-linux-gnu".toList),
   (("linux".toList, "arm64".toList), "aarch64-unknown-linux-gnu".toList),
   (("darwin".toList, "x64".toList), "x86_64-apple-darwin".toList),
   (("darwin".toList, "arm64".toList), "aarch64-apple-darwin".toList),
   (("win32".toList, "x64".toList), "x86_64-pc-windows-msvc".toList),
   (("win32".toList, "arm64".toList), "aarch64-pc-windows-msvc".toList)]

/-! ## Properties -/

theorem lookup_cons_ite {α β : Type} [BEq α] [LawfulBEq α] [DecidableEq α] (k k' : α) (v : β) (l : List (α × β)) :
    ((k', v) :: l).lookup k = if k = k' then some v else l.lookup k := by
  by_cases h : k = k'
  · subst h; simp [List.lookup]
  · simp only [List.lookup, beq_eq_false_iff_ne.mpr h, if_neg h]

/-! ### `trim` -/

theorem dropWhile_eq_nil_of_all (p : Char → Bool) (s : Str) (h : ∀ c ∈ s, p c = true) :
    s.dropWhile p = [] := by
  induction s with
  | nil => rfl
  | cons c cs ih =>
    have hc : p c = true := h c (List.mem_cons_self _ _)
    simp only [List.dropWhile_cons, hc, if_true]
    exact ih (fun d hd => h d (List.mem_cons_of_mem _ hd))

theorem dropWhile_head_false (p : Char → Bool) (s : Str) (c : Char) (rest : Str)
    (h : s.dropWhile p = c :: rest) : p c = false := by
  induction s with
  | nil => cases h
  | cons d ds ih =>
    rw [List.dropWhile_cons] at h
    by_cases hd : p d = true
    · rw [if_pos hd] at h; exact ih h
    · rw [if_neg hd] at h
      injection h with h1 h2
      subst h1
      simpa using hd

theorem trim_eq_nil_of_all_whiteSpace (s : Str) (h : ∀ c ∈ s, isJsWhiteSpace c = true) :
    trim s = [] := by
  unfold trim
  rw [dropWhile_eq_nil_of_all _ s h]
  rfl

theorem takeWhile_all (p : Char → Bool) (s : Str) : ∀ c ∈ s.takeWhile p, p c = true := by
  intro c hc
  exact (List.mem_takeWhile_imp hc)

/-- `trim s` is `s` without a prefix and a suffix made of white space only, and it neither
starts nor ends with white space. -/
theorem trim_spec (s : Str) :
    (∃ l r : Str, s = l ++ trim s ++ r ∧ (∀ c ∈ l, isJsWhiteSpace c = true) ∧
      (∀ c ∈ r, isJsWhiteSpace c = true)) ∧
    (∀ c, (trim s).head? = some c → isJsWhiteSpace c = false) ∧
    (∀ c, (trim s).getLast? = some c → isJsWhiteSpace c = false) := by
  have hs : s = s.takeWhile isJsWhiteSpace ++ s.dropWhile isJsWhiteSpace :=
    (List.takeWhile_append_dropWhile _ _).symm
  have ht : s.dropWhile isJsWhiteSpace = trim s ++
      ((s.dropWhile isJsWhiteSpace).reverse.takeWhile isJsWhiteSpace).reverse := by
    unfold trim
    rw [← List.reverse_append, List.takeWhile_append_dropWhile, List.reverse_reverse]
  refine ⟨⟨s.takeWhile isJsWhiteSpace,
    ((s.dropWhile isJsWhiteSpace).reverse.takeWhile isJsWhiteSpace).reverse,
    ?_, takeWhile_all _ _, ?_⟩, ?_, ?_⟩
  · rw [List.append_assoc, ← ht]; exact hs
  · intro c hc
    exact takeWhile_all _ _ c (List.mem_reverse.mp hc)
  · intro c hc
    cases htr : trim s with
    | nil => rw [htr] at hc; cases hc
    | cons d rest =>
      rw [htr] at hc ht
      simp only [List.head?_cons, Option.some.injEq] at hc
      subst hc
      exact dropWhile_head_false _ _ _ _ ht
  · intro c hc
    unfold trim at hc
    rw [List.getLast?_reverse] at hc
    cases hd : (s.dropWhile isJsWhiteSpace).reverse.dropWhile isJsWhiteSpace with
    | nil => rw [hd] at hc; cases hc
    | cons d rest =>
      rw [hd] at hc
      simp only [List.head?_cons, Option.some.injEq] at hc
      subst hc
      exact dropWhile_head_false _ _ _ _ hd

/-! ### List scanning -/

theorem dropPrefix?_eq_some_iff (p s r : Str) : dropPrefix? p s = some r ↔ s = p ++ r := by
  induction p generalizing s with
  | nil => simp [dropPrefix?, eq_comm]
  | cons a p ih =>
    cases s with
    | nil => simp [dropPrefix?]
    | cons c cs =>
      by_cases hac : a = c
      · subst hac; simp [dropPrefix?, ih]
      · simp only [dropPrefix?, if_neg hac, List.cons_append, List.cons.injEq]
        constructor
        · intro h; cases h
        · intro h; exact absurd h.1.symm hac

theorem dropWhile_append_stop (p : Char → Bool) (l : Str) (x : Char) (r : Str)
    (hl : ∀ c ∈ l, p c = true) (hx : p x = false) :
    (l ++ x :: r).dropWhile p = x :: r := by
  induction l with
  | nil => simp [List.dropWhile_cons, hx]
  | cons c cs ih =>
    have hc : p c = true := hl c (List.mem_cons_self _ _)
    simp only [List.cons_append, List.dropWhile_cons, hc, if_true]
    exact ih (fun d hd => hl d (List.mem_cons_of_mem _ hd))

theorem takeWhile_append_stop (p : Char → Bool) (l : Str) (x : Char) (r : Str)
    (hl : ∀ c ∈ l, p c = true) (hx : p x = false) :
    (l ++ x :: r).takeWhile p = l := by
  induction l with
  | nil => simp [List.takeWhile_cons, hx]
  | cons c cs ih =>
    have hc : p c = true := hl c (List.mem_cons_self _ _)
    simp only [List.cons_append, List.takeWhile_cons, hc, if_true]
    rw [ih (fun d hd => hl d (List.mem_cons_of_mem _ hd))]

/-! ### `matchVersionLine` against the declarative form -/

theorem matchVersionLine_eq_some_iff (line X : Str) :
    matchVersionLine line = some X ↔ VersionLine line X := by
  constructor
  · intro h
    unfold matchVersionLine at h
    cases h1 : dropPrefix? "version".toList line with
    | none => rw [h1] at h; cases h
    | some afterKey =>
      rw [h1] at h
      dsimp only at h
      cases h2 : afterKey.dropWhile isJsWhiteSpace with
      | nil => rw [h2] at h; cases h
      | cons e afterEq =>
        rw [h2] at h
        dsimp only at h
        by_cases he : e = '='
        · subst he
          simp only [ne_eq, not_true_eq_false, if_false] at h
          cases h3 : afterEq.dropWhile isJsWhiteSpace with
          | nil => rw [h3] at h; cases h
          | cons q afterQuote =>
            rw [h3] at h
            dsimp only at h
            by_cases hq : isQuote q = false
            · simp only [hq, if_true] at h; cases h
            · have hq' : isQuote q = true := by simpa using hq
              simp only [hq', Bool.true_eq_false, if_false] at h
              cases h4 : afterQuote.dropWhile (fun c => !isQuote c) with
              | nil => rw [h4] at h; cases h
              | cons q2 rest =>
                rw [h4] at h
                dsimp only at h
                by_cases hv : afterQuote.takeWhile (fun c => !isQuote c) = []
                · simp only [hv, if_true] at h; cases h
                · simp only [hv, if_false, Option.some.injEq] at h
                  refine ⟨afterKey.takeWhile isJsWhiteSpace, afterEq.takeWhile isJsWhiteSpace,
                    rest, q, q2, ?_, takeWhile_all _ _, takeWhile_all _ _, ?_, ?_, ?_, ?_⟩
                  · rw [← h, ← h4, List.takeWhile_append_dropWhile, ← h3,
                      List.takeWhile_append_dropWhile, ← h2, List.takeWhile_append_dropWhile]
                    exact (dropPrefix?_eq_some_iff _ _ _).mp h1
                  · exact hq'
                  · have := dropWhile_head_false _ _ _ _ h4
                    simpa using this
                  · rw [← h]; exact hv
                  · intro c hc
                    rw [← h] at hc
                    have := takeWhile_all _ _ c hc
                    simpa using this
        · simp only [ne_eq, he, not_false_eq_true, if_true] at h; cases h
  · rintro ⟨w1, w2, rest, q1, q2, hline, hw1, hw2, hq1, hq2, hne, hX⟩
    have hX' : ∀ c ∈ X, (fun c => !isQuote c) c = true := by
      intro c hc; simp [hX c hc]
    have hq2' : (fun c => !isQuote c) q2 = false := by simp [hq2]
    have hq1w : isJsWhiteSpace q1 = false := by
      unfold isQuote at hq1
      rcases Bool.or_eq_true _ _ ▸ hq1 with h | h
      · rw [beq_iff_eq] at h; subst h; rfl
      · rw [beq_iff_eq] at h; subst h; rfl
    unfold matchVersionLine
    rw [(dropPrefix?_eq_some_iff _ _ _).mpr hline]
    simp only
    rw [dropWhile_append_stop _ w1 '=' _ hw1 (by rfl)]
    simp only [ne_eq, not_true_eq_false, if_false]
    rw [dropWhile_append_stop _ w2 q1 _ hw2 hq1w]
    simp only [hq1, Bool.true_eq_false, if_false]
    rw [dropWhile_append_stop _ X q2 _ hX' hq2', takeWhile_append_stop _ X q2 _ hX' hq2']
    simp only [hne, if_false]

/-! ### The scan of the manifest against its declarative reading -/

theorem versionLine_head (line X : Str) (h : VersionLine line X) :
    ∃ rest, line = 'v' :: rest := by
  obtain ⟨w1, w2, rest, q1, q2, hline, -⟩ := h
  exact ⟨_, hline⟩

theorem inSectionFrom_zero (b : Bool) (lines : List Str) :
    InSectionFrom b lines 0 ↔ b = true := by
  constructor
  · rintro (⟨hb, -⟩ | ⟨h, hdr, hlt, -⟩)
    · exact hb
    · exact absurd hlt (Nat.not_lt_zero _)
  · intro hb
    exact Or.inl ⟨hb, fun k l hk => absurd hk (Nat.not_lt_zero _)⟩

theorem inSectionFrom_false (lines : List Str) (i : Nat) :
    InSectionFrom false lines i ↔ InProjectSection lines i := by
  constructor
  · rintro (⟨hb, -⟩ | h)
    · cases hb
    · exact h
  · exact Or.inr

theorem isSectionHeader_of_project (line : Str) (h : line = "[project]".toList) :
    isSectionHeader line = true := by
  subst h; rfl

theorem inSectionFrom_succ (b : Bool) (raw : Str) (rest : List Str) (j : Nat) :
    InSectionFrom b (raw :: rest) (j + 1) ↔
      InSectionFrom (nextInProjectSection b raw) rest j := by
  unfold nextInProjectSection
  by_cases hh : isSectionHeader (trim raw) = true
  · rw [if_pos hh]
    constructor
    · rintro (⟨-, hno⟩ | ⟨h, hdr, hlt, hget, hproj, hno⟩)
      · have := hno 0 raw (Nat.succ_pos _) (by simp)
        rw [hh] at this; cases this
      · cases h with
        | zero =>
          simp only [List.getElem?_cons_zero, Option.some.injEq] at hget
          subst hget
          refine Or.inl ⟨by simpa using hproj, fun k l hk hl => ?_⟩
          exact hno (k + 1) l (Nat.succ_pos _) (Nat.succ_lt_succ hk) (by simpa using hl)
        | succ h' =>
          refine Or.inr ⟨h', hdr, Nat.lt_of_succ_lt_succ hlt, by simpa using hget, hproj,
            fun k l hk1 hk2 hl => ?_⟩
          exact hno (k + 1) l (Nat.succ_lt_succ hk1) (Nat.succ_lt_succ hk2) (by simpa using hl)
    · rintro (⟨hb, hno⟩ | ⟨h, hdr, hlt, hget, hproj, hno⟩)
      · refine Or.inr ⟨0, raw, Nat.succ_pos _, by simp, by simpa using hb,
          fun k l hk1 hk2 hl => ?_⟩
        cases k with
        | zero => exact absurd hk1 (Nat.lt_irrefl _)
        | succ k' =>
          exact hno k' l (Nat.lt_of_succ_lt_succ hk2) (by simpa using hl)
      · refine Or.inr ⟨h + 1, hdr, Nat.succ_lt_succ hlt, by simpa using hget, hproj,
          fun k l hk1 hk2 hl => ?_⟩
        cases k with
        | zero => exact absurd hk1 (Nat.not_lt_zero _)
        | succ k' =>
          exact hno k' l (Nat.lt_of_succ_lt_succ hk1) (Nat.lt_of_succ_lt_succ hk2)
            (by simpa using hl)
  · rw [if_neg hh]
    have hh' : isSectionHeader (trim raw) = false := by simpa using hh
    constructor
    · rintro (⟨hb, hno⟩ | ⟨h, hdr, hlt, hget, hproj, hno⟩)
      · refine Or.inl ⟨hb, fun k l hk hl => ?_⟩
        exact hno (k + 1) l (Nat.succ_lt_succ hk) (by simpa using hl)
      · cases h with
        | zero =>
          simp only [List.getElem?_cons_zero, Option.some.injEq] at hget
          subst hget
          exact absurd (isSectionHeader_of_project _ hproj) hh
        | succ h' =>
          refine Or.inr ⟨h', hdr, Nat.lt_of_succ_lt_succ hlt, by simpa using hget, hproj,
            fun k l hk1 hk2 hl => ?_⟩
          exact hno (k + 1) l (Nat.succ_lt_succ hk1) (Nat.succ_lt_succ hk2) (by simpa using hl)
    · rintro (⟨hb, hno⟩ | ⟨h, hdr, hlt, hget, hproj, hno⟩)
      · refine Or.inl ⟨hb, fun k l hk hl => ?_⟩
        cases k with
        | zero =>
          simp only [List.getElem?_cons_zero, Option.some.injEq] at hl
          subst hl; exact hh'
        | succ k' => exact hno k' l (Nat.lt_of_succ_lt_succ hk) (by simpa using hl)
      · refine Or.inr ⟨h + 1, hdr, Nat.succ_lt_succ hlt, by simpa using hget, hproj,
          fun k l hk1 hk2 hl => ?_⟩
        cases k with
        | zero => exact absurd hk1 (Nat.not_lt_zero _)
        | succ k' =>
          exact hno k' l (Nat.lt_of_succ_lt_succ hk1) (Nat.lt_of_succ_lt_succ hk2)
            (by simpa using hl)

theorem scanPyproject_cons_version (raw : Str) (rest : List Str) (X : Str)
    (h : VersionLine (trim raw) X) :
    scanPyproject true (raw :: rest) = some (trim X) := by
  obtain ⟨r, hr⟩ := versionLine_head _ _ h
  have hm := (matchVersionLine_eq_some_iff _ _).mpr h
  unfold scanPyproject
  simp only [hr] at hm ⊢
  simp [isSectionHeader, hm]

theorem scanPyproject_cons_skip (b : Bool) (raw : Str) (rest : List Str)
    (h : b = false ∨ ∀ X, ¬ VersionLine (trim raw) X) :
    scanPyproject b (raw :: rest) = scanPyproject (nextInProjectSection b raw) rest := by
  rw [scanPyproject]
  unfold nextInProjectSection
  by_cases h1 : trim raw = [] ∨ (trim raw).head? = some '#'
  · have hh : isSectionHeader (trim raw) = false := by
      rcases h1 with h1 | h1 <;> simp [isSectionHeader, h1]
    simp only [h1, if_true, hh, Bool.false_eq_true, if_false]
  · simp only [h1, if_false]
    by_cases h2 : isSectionHeader (trim raw) = true
    · simp only [h2, if_true]
    · simp only [h2, if_false]
      cases b with
      | false => simp
      | true =>
        have hX : ∀ X, ¬ VersionLine (trim raw) X := by
          rcases h with h | h
          · cases h
          · exact h
        cases hm : matchVersionLine (trim raw) with
        | none => simp
        | some v => exact absurd ((matchVersionLine_eq_some_iff _ _).mp hm) (hX v)

theorem scanPyproject_first (lines : List Str) :
    ∀ (b : Bool) (i : Nat) (l X : Str), lines[i]? = some l → InSectionFrom b lines i →
      VersionLine (trim l) X →
      (∀ j l' Y, j < i → lines[j]? = some l' → InSectionFrom b lines j →
        ¬ VersionLine (trim l') Y) →
      scanPyproject b lines = some (trim X) := by
  induction lines with
  | nil => intro b i l X hl; simp at hl
  | cons raw rest ih =>
    intro b i l X hl hin hv hmin
    cases i with
    | zero =>
      simp only [List.getElem?_cons_zero, Option.some.injEq] at hl
      subst hl
      have hb := (inSectionFrom_zero b _).mp hin
      subst hb
      exact scanPyproject_cons_version _ _ _ hv
    | succ j =>
      have hskip : b = false ∨ ∀ Y, ¬ VersionLine (trim raw) Y := by
        cases b with
        | false => exact Or.inl rfl
        | true =>
          exact Or.inr (fun Y => hmin 0 raw Y (Nat.succ_pos _) (by simp)
            ((inSectionFrom_zero _ _).mpr rfl))
      rw [scanPyproject_cons_skip b raw rest hskip]
      refine ih _ j l X (by simpa using hl) ((inSectionFrom_succ _ _ _ _).mp hin) hv ?_
      intro j' l' Y hj hl' hin'
      exact hmin (j' + 1) l' Y (Nat.succ_lt_succ hj) (by simpa using hl')
        ((inSectionFrom_succ _ _ _ _).mpr hin')

theorem scanPyproject_none (lines : List Str) :
    ∀ (b : Bool), (∀ i l X, lines[i]? = some l → InSectionFrom b lines i →
        ¬ VersionLine (trim l) X) →
      scanPyproject b lines = none := by
  induction lines with
  | nil => intro b _; rfl
  | cons raw rest ih =>
    intro b h
    have hskip : b = false ∨ ∀ Y, ¬ VersionLine (trim raw) Y := by
      cases b with
      | false => exact Or.inl rfl
      | true =>
        exact Or.inr (fun Y => h 0 raw Y (by simp) ((inSectionFrom_zero _ _).mpr rfl))
    rw [scanPyproject_cons_skip b raw rest hskip]
    refine ih _ ?_
    intro i l X hl hin
    exact h (i + 1) l X (by simpa using hl) ((inSectionFrom_succ _ _ _ _).mpr hin)

theorem inSectionFrom_iff_flag (lines : List Str) :
    ∀ (b : Bool) (i : Nat), InSectionFrom b lines i ↔ sectionFlagAt b lines i = true := by
  induction lines with
  | nil =>
    intro b i
    unfold sectionFlagAt
    simp only [List.take_nil, List.foldl_nil]
    constructor
    · rintro (⟨hb, -⟩ | ⟨h, hdr, -, hget, -⟩)
      · exact hb
      · simp at hget
    · intro hb
      exact Or.inl ⟨hb, fun k l _ hl => by simp at hl⟩
  | cons raw rest ih =>
    intro b i
    cases i with
    | zero => rw [inSectionFrom_zero]; rfl
    | succ j =>
      rw [inSectionFrom_succ, ih]
      rfl

theorem inProjectSection_iff_flag (lines : List Str) (i : Nat) :
    InProjectSection lines i ↔ sectionFlagAt false lines i = true := by
  rw [← inSectionFrom_false, inSectionFrom_iff_flag]

theorem not_versionLine_of_projectVersionAt (lines : List Str) (i : Nat) (l X : Str)
    (hcheck : projectVersionAt lines i = false) (hl : lines[i]? = some l)
    (hin : InProjectSection lines i) : ¬ VersionLine (trim l) X := by
  intro hv
  have hm := (matchVersionLine_eq_some_iff _ _).mpr hv
  have hflag := (inProjectSection_iff_flag _ _).mp hin
  have hd : lines.getD i [] = l := by
    rw [List.getD_eq_getElem?_getD, hl]; rfl
  unfold projectVersionAt at hcheck
  rw [hflag, hd, hm] at hcheck
  cases hcheck

theorem projectVersionAt_false_of_bounded (lines : List Str) (n : Nat)
    (hn : lines.length ≤ n) (h : ∀ i < n, projectVersionAt lines i = false) :
    ∀ i, projectVersionAt lines i = false := by
  intro i
  by_cases hi : i < n
  · exact h i hi
  · have hlen : lines.length ≤ i := Nat.le_trans hn (Nat.le_of_not_lt hi)
    have hd : lines.getD i [] = [] := by
      rw [List.getD_eq_getElem?_getD, List.getElem?_eq_none hlen]; rfl
    unfold projectVersionAt
    rw [hd]
    have : matchVersionLine (trim []) = none := by rfl
    rw [this]
    simp

/-! ### `readAstrbotVersionFromPyproject` -/

theorem inProjectSection_header (lines : List Str) (i : Nat) (h : InProjectSection lines i) :
    ∃ l ∈ lines, trim l = "[project]".toList := by
  obtain ⟨k, hdr, -, hget, hproj, -⟩ := h
  exact ⟨hdr, List.getElem?_mem hget, hproj⟩

/-- C4, amended: when no line of the manifest, once trimmed, is exactly `[project]`, or no
line of the form `version = "X"` lies inside the `[project]` section, reading the manifest
fails with the error `Cannot resolve [project].version from <path>` and returns no
version.  The section is read line by line: it runs from a line that trims to `[project]`
to the next line that, trimmed, begins with `[` and ends with `]`; a table header followed
by a comment is not such a line and does not end the section. -/
theorem readAstrbotVersionFromPyproject_version_missing (files : Files)
    (sourceDir content : Str)
    (hfile : readText files (pathJoin sourceDir ["pyproject.toml".toList]) = some content)
    (h : (∀ l ∈ splitLines content, trim l ≠ "[project]".toList) ∨
      (∀ i l X, (splitLines content)[i]? = some l → InProjectSection (splitLines content) i →
        ¬ VersionLine (trim l) X)) :
    readAstrbotVersionFromPyproject files sourceDir =
      .error (.error ("Cannot resolve [project].version from ".toList
        ++ pathJoin sourceDir ["pyproject.toml".toList])) := by
  have hnone : scanPyproject false (splitLines content) = none := by
    apply scanPyproject_none
    intro i l X hl hin
    have hin' := (inSectionFrom_false _ _).mp hin
    rcases h with h | h
    · obtain ⟨l', hmem, hproj⟩ := inProjectSection_header _ _ hin'
      exact absurd hproj (h l' hmem)
    · exact h i l X hl hin'
  unfold readAstrbotVersionFromPyproject
  simp only [hfile, hnone]

/-- C5, amended: when line `i` of the manifest lies inside the `[project]` section and has
the form `version = "X"` (each of the two quotes being `"` or `'`) with `X` non-empty and
free of quote characters of either kind, and it is the first such line inside the
`[project]` section, reading the manifest returns `X` trimmed, whatever blank lines,
comment lines and other sections precede it. -/
theorem readAstrbotVersionFromPyproject_first_project_version (files : Files)
    (sourceDir content : Str) (i : Nat) (l X : Str)
    (hfile : readText files (pathJoin sourceDir ["pyproject.toml".toList]) = some content)
    (hl : (splitLines content)[i]? = some l)
    (hin : InProjectSection (splitLines content) i)
    (hv : VersionLine (trim l) X)
    (hfirst : ∀ j l' Y, j < i → (splitLines content)[j]? = some l' →
      InProjectSection (splitLines content) j → ¬ VersionLine (trim l') Y) :
    readAstrbotVersionFromPyproject files sourceDir = .ok (trim X) := by
  have hsome : scanPyproject false (splitLines content) = some (trim X) := by
    refine scanPyproject_first _ false i l X hl ((inSectionFrom_false _ _).mpr hin) hv ?_
    intro j l' Y hj hl' hin'
    exact hfirst j l' Y hj hl' ((inSectionFrom_false _ _).mp hin')
  unfold readAstrbotVersionFromPyproject
  simp only [hfile, hsome]

/-- C4 at a concrete manifest: the only version key is in `[tool.poetry]`. -/
theorem readAstrbotVersionFromPyproject_version_missing_witness :
    readAstrbotVersionFromPyproject [("/src/pyproject.toml".toList, toolVersionPyproject)]
        "/src".toList =
      .error (.error "Cannot resolve [project].version from /src/pyproject.toml".toList) :=
  readAstrbotVersionFromPyproject_version_missing
    [("/src/pyproject.toml".toList, toolVersionPyproject)] "/src".toList toolVersionPyproject
    (by rfl)
    (Or.inr (fun i l X hl hin =>
      not_versionLine_of_projectVersionAt _ i l X
        (projectVersionAt_false_of_bounded _ 6 (by decide) (by decide) i) hl hin))

/-- C4 as stated fails: in this manifest the only version key belongs to the table
`[tool.poetry]` and the `[project]` table has none, but the header line of `[tool.poetry]`
carries a comment, so it does not end with `]`, the scan stays inside `[project]`, and the
version of `[tool.poetry]` is returned instead of the error. -/
theorem readAstrbotVersionFromPyproject_other_section_counterexample :
    (splitLines commentedHeaderPyproject)[3]? =
      some "[tool.poetry]  # legacy metadata".toList ∧
    tomlTableHeader? "[tool.poetry]  # legacy metadata".toList = some "[tool.poetry]".toList ∧
    (splitLines commentedHeaderPyproject)[4]? = some "version = \"9.9.9\"".toList ∧
    tomlTableAt (splitLines commentedHeaderPyproject) 4 = some "[tool.poetry]".toList ∧
    (∀ i < (splitLines commentedHeaderPyproject).length,
      tomlTableAt (splitLines commentedHeaderPyproject) i = some "[project]".toList →
      dropPrefix? "version".toList (trim ((splitLines commentedHeaderPyproject).getD i []))
        = none) ∧
    isSectionHeader (trim "[tool.poetry]  # legacy metadata".toList) = false ∧
    readAstrbotVersionFromPyproject
      [("/src/pyproject.toml".toList, commentedHeaderPyproject)] "/src".toList =
      .ok "9.9.9".toList := by
  refine ⟨by decide, by decide, by decide, by decide, by decide, by decide, by rfl⟩

/-- C5 at the manifest of the repository's test: the version line is line 6, after a blank
line, the `[build-system]` section and the `name` key. -/
theorem readAstrbotVersionFromPyproject_first_project_version_witness :
    readAstrbotVersionFromPyproject [("/src/pyproject.toml".toList, testPyproject)]
        "/src".toList = .ok "1.9.1".toList :=
  readAstrbotVersionFromPyproject_first_project_version
    [("/src/pyproject.toml".toList, testPyproject)] "/src".toList testPyproject 6
    "version = \"1.9.1\"".toList "1.9.1".toList
    (by rfl) (by decide)
    ((inProjectSection_iff_flag _ _).mpr (by decide))
    ((matchVersionLine_eq_some_iff _ _).mp (by decide))
    (fun j l' Y hj hl' hin' =>
      not_versionLine_of_projectVersionAt _ j l' Y
        ((by decide : ∀ j < 6, projectVersionAt (splitLines testPyproject) j = false) j hj)
        hl' hin')

/-- C5 as stated fails: a `[project]` line `version = "it's"` has the stated form with
`X = it's`, yet the value returned is `it`; and for `version = ""`, of the stated form with
an empty `X`, the reader fails instead of returning the empty string. -/
theorem readAstrbotVersionFromPyproject_quoted_value_counterexample :
    ((splitLines apostrophePyproject)[1]? = some "version = \"it's\"".toList ∧
      InProjectSection (splitLines apostrophePyproject) 1 ∧
      QuotedVersionLine (trim "version = \"it's\"".toList) "it's".toList ∧
      readAstrbotVersionFromPyproject [("/src/pyproject.toml".toList, apostrophePyproject)]
        "/src".toList = .ok "it".toList ∧
      trim "it's".toList ≠ "it".toList) ∧
    ((splitLines emptyVersionPyproject)[1]? = some "version = \"\"".toList ∧
      InProjectSection (splitLines emptyVersionPyproject) 1 ∧
      QuotedVersionLine (trim "version = \"\"".toList) [] ∧
      readAstrbotVersionFromPyproject [("/src/pyproject.toml".toList, emptyVersionPyproject)]
        "/src".toList =
        .error (.error "Cannot resolve [project].version from /src/pyproject.toml".toList)) := by
  refine ⟨⟨by decide, (inProjectSection_iff_flag _ _).mpr (by decide), ?_, by rfl, by decide⟩,
    ⟨by decide, (inProjectSection_iff_flag _ _).mpr (by decide), ?_, by rfl⟩⟩
  · exact ⟨[' '], [' '], [], dquote, by decide, by decide, by decide, by decide, by decide⟩
  · exact ⟨[' '], [' '], [], dquote, by decide, by decide, by decide, by decide, by decide⟩

/-! ### The Cargo pattern -/

theorem dropWhile_append_of_mem (p : Char → Bool) (l Z : Str) (c : Char) (hc : c ∈ l)
    (hp : p c = false) : (l ++ Z).dropWhile p = l.dropWhile p ++ Z := by
  induction l with
  | nil => cases hc
  | cons d ds ih =>
    by_cases hd : p d = true
    · have hcd : c ∈ ds := by
        rcases List.mem_cons.mp hc with h | h
        · subst h; rw [hp] at hd; cases hd
        · exact h
      simp only [List.cons_append, List.dropWhile_cons, hd, if_true]
      exact ih hcd
    · simp only [List.cons_append, List.dropWhile_cons, hd, if_false, Bool.false_eq_true]

theorem takeWhile_append_of_mem (p : Char → Bool) (l Z : Str) (c : Char) (hc : c ∈ l)
    (hp : p c = false) : (l ++ Z).takeWhile p = l.takeWhile p := by
  induction l with
  | nil => cases hc
  | cons d ds ih =>
    by_cases hd : p d = true
    · have hcd : c ∈ ds := by
        rcases List.mem_cons.mp hc with h | h
        · subst h; rw [hp] at hd; cases hd
        · exact h
      simp only [List.cons_append, List.takeWhile_cons, hd, if_true]
      rw [ih hcd]
    · simp only [List.cons_append, List.takeWhile_cons, hd, if_false, Bool.false_eq_true]

theorem mem_dropWhile_of_mem (p : Char → Bool) (l : Str) (c : Char) (hc : c ∈ l)
    (hp : p c = false) : c ∈ l.dropWhile p := by
  induction l with
  | nil => cases hc
  | cons d ds ih =>
    by_cases hd : p d = true
    · have hcd : c ∈ ds := by
        rcases List.mem_cons.mp hc with h | h
        · subst h; rw [hp] at hd; cases hd
        · exact h
      simp only [List.dropWhile_cons, hd, if_true]
      exact ih hcd
    · simp only [List.dropWhile_cons, hd, if_false, Bool.false_eq_true]
      exact hc

theorem dropPrefix?_append_of_mem (P pre Z : Str) (c : Char) (hc : c ∈ pre) (hP : c ∉ P) :
    dropPrefix? P (pre ++ Z) = (dropPrefix? P pre).map (fun r => r ++ Z) := by
  induction P generalizing pre with
  | nil => simp [dropPrefix?]
  | cons a P ih =>
    cases pre with
    | nil => cases hc
    | cons d ds =>
      by_cases had : a = d
      · subst had
        have hcd : c ∈ ds := by
          rcases List.mem_cons.mp hc with h | h
          · subst h; exact absurd (List.mem_cons_self _ _) hP
          · exact h
        simp only [List.cons_append, dropPrefix?, if_true]
        exact ih ds hcd (fun h => hP (List.mem_cons_of_mem _ h))
      · simp only [List.cons_append, dropPrefix?, if_neg had, Option.map_none']

theorem mem_of_dropPrefix? (P pre r : Str) (c : Char) (hc : c ∈ pre) (hP : c ∉ P)
    (h : dropPrefix? P pre = some r) : c ∈ r := by
  have hpre := (dropPrefix?_eq_some_iff _ _ _).mp h
  rw [hpre] at hc
  rcases List.mem_append.mp hc with h | h
  · exact absurd h hP
  · exact h

theorem isJsWhiteSpace_dquote : isJsWhiteSpace dquote = false := by decide

theorem matchCargoValue_sound (s v a : Str) (h : matchCargoValue s = some (v, a)) :
    s = v ++ dquote :: a ∧ v ≠ [] ∧ dquote ∉ v := by
  unfold matchCargoValue at h
  cases hd : s.dropWhile (fun c => c != dquote) with
  | nil => rw [hd] at h; cases h
  | cons q after =>
    rw [hd] at h
    dsimp only at h
    by_cases hv : s.takeWhile (fun c => c != dquote) = []
    · rw [if_pos hv] at h; cases h
    · rw [if_neg hv] at h
      injection h with h
      injection h with h1 h2
      subst h1 h2
      have hq : q = dquote := by
        have := dropWhile_head_false _ _ _ _ hd
        simpa using this
      subst hq
      refine ⟨?_, hv, ?_⟩
      · rw [← hd, List.takeWhile_append_dropWhile]
      · intro hmem
        have := takeWhile_all _ _ _ hmem
        simp at this

theorem matchCargoValue_complete (v a : Str) (hv : v ≠ []) (hq : dquote ∉ v) :
    matchCargoValue (v ++ dquote :: a) = some (v, a) := by
  have hall : ∀ c ∈ v, (fun c => c != dquote) c = true := by
    intro c hc
    have : c ≠ dquote := fun h => hq (h ▸ hc)
    simpa using this
  unfold matchCargoValue
  rw [dropWhile_append_stop _ v dquote a hall (by simp),
    takeWhile_append_stop _ v dquote a hall (by simp)]
  simp only [hv, if_false]

theorem matchCargoValue_append_of_mem (aq Z : Str) (hq : dquote ∈ aq) :
    matchCargoValue (aq ++ Z) = (matchCargoValue aq).map (fun r => (r.1, r.2 ++ Z)) := by
  unfold matchCargoValue
  rw [dropWhile_append_of_mem _ aq Z dquote hq (by simp),
    takeWhile_append_of_mem _ aq Z dquote hq (by simp)]
  cases hd : aq.dropWhile (fun c => c != dquote) with
  | nil =>
    have := mem_dropWhile_of_mem (fun c => c != dquote) aq dquote hq (by simp)
    rw [hd] at this
    cases this
  | cons q after =>
    simp only [List.cons_append]
    by_cases hv : aq.takeWhile (fun c => c != dquote) = []
    · simp only [hv, if_true, Option.map_none']
    · simp only [hv, if_false, Option.map_some']

theorem matchCargoHeader_sound (s h aq : Str) (hm : matchCargoHeader s = some (h, aq)) :
    s = h ++ aq ∧ IsCargoHeader h := by
  unfold matchCargoHeader at hm
  cases h1 : dropPrefix? "\nversion".toList s with
  | none => rw [h1] at hm; cases hm
  | some afterKey =>
    rw [h1] at hm
    dsimp only at hm
    cases h2 : afterKey.dropWhile isJsWhiteSpace with
    | nil => rw [h2] at hm; cases hm
    | cons e afterEq =>
      rw [h2] at hm
      dsimp only at hm
      by_cases he : e = '='
      · subst he
        simp only [ne_eq, not_true_eq_false, if_false] at hm
        cases h3 : afterEq.dropWhile isJsWhiteSpace with
        | nil => rw [h3] at hm; cases hm
        | cons q afterQuote =>
          rw [h3] at hm
          dsimp only at hm
          by_cases hq : q = dquote
          · subst hq
            simp only [ne_eq, not_true_eq_false, if_false, Option.some.injEq,
              Prod.mk.injEq] at hm
            obtain ⟨hh, haq⟩ := hm
            subst hh haq
            refine ⟨?_, ⟨_, _, rfl, takeWhile_all _ _, takeWhile_all _ _⟩⟩
            have hs := (dropPrefix?_eq_some_iff _ _ _).mp h1
            have e1 : afterKey = afterKey.takeWhile isJsWhiteSpace ++ '=' :: afterEq := by
              rw [← h2, List.takeWhile_append_dropWhile]
            have e2 : afterEq = afterEq.takeWhile isJsWhiteSpace ++ dquote :: afterQuote := by
              rw [← h3, List.takeWhile_append_dropWhile]
            rw [hs]
            simp only [List.append_assoc, List.cons_append, List.nil_append]
            congr 1
            refine e1.trans ?_
            congr 2
          · simp only [ne_eq, hq, not_false_eq_true, if_true] at hm; cases hm
      · simp only [ne_eq, he, not_false_eq_true, if_true] at hm; cases hm

theorem matchCargoHeader_complete (h Z : Str) (hh : IsCargoHeader h) :
    matchCargoHeader (h ++ Z) = some (h, Z) := by
  obtain ⟨w1, w2, rfl, hw1, hw2⟩ := hh
  have hs : "\nversion".toList ++ (w1 ++ ('=' :: (w2 ++ [dquote]))) ++ Z =
      "\nversion".toList ++ (w1 ++ ('=' :: (w2 ++ (dquote :: Z)))) := by
    simp only [List.append_assoc, List.cons_append, List.nil_append]
  unfold matchCargoHeader
  rw [hs, (dropPrefix?_eq_some_iff _ _ _).mpr rfl]
  dsimp only
  rw [dropWhile_append_stop _ w1 '=' _ hw1 (by rfl),
    takeWhile_append_stop _ w1 '=' _ hw1 (by rfl)]
  simp only [ne_eq, not_true_eq_false, if_false]
  rw [dropWhile_append_stop _ w2 dquote _ hw2 isJsWhiteSpace_dquote,
    takeWhile_append_stop _ w2 dquote _ hw2 isJsWhiteSpace_dquote]
  simp only [not_true_eq_false, if_false]

theorem matchCargoHeader_append_of_mem (pre Z : Str) (hq : dquote ∈ pre) :
    matchCargoHeader (pre ++ Z) = (matchCargoHeader pre).map (fun r => (r.1, r.2 ++ Z)) := by
  unfold matchCargoHeader
  rw [dropPrefix?_append_of_mem _ pre Z dquote hq (by decide)]
  cases h1 : dropPrefix? "\nversion".toList pre with
  | none => rfl
  | some afterKey =>
    have hq1 : dquote ∈ afterKey := mem_of_dropPrefix? _ _ _ _ hq (by decide) h1
    simp only [Option.map_some']
    rw [dropWhile_append_of_mem _ afterKey Z dquote hq1 isJsWhiteSpace_dquote,
      takeWhile_append_of_mem _ afterKey Z dquote hq1 isJsWhiteSpace_dquote]
    have hq2 := mem_dropWhile_of_mem _ afterKey dquote hq1 isJsWhiteSpace_dquote
    cases h2 : afterKey.dropWhile isJsWhiteSpace with
    | nil => rw [h2] at hq2; cases hq2
    | cons e afterEq =>
      rw [h2] at hq2
      simp only [List.cons_append]
      by_cases he : e = '='
      · subst he
        have hq3 : dquote ∈ afterEq := by
          rcases List.mem_cons.mp hq2 with h | h
          · exact absurd h (by decide)
          · exact h
        simp only [ne_eq, not_true_eq_false, if_false]
        rw [dropWhile_append_of_mem _ afterEq Z dquote hq3 isJsWhiteSpace_dquote,
          takeWhile_append_of_mem _ afterEq Z dquote hq3 isJsWhiteSpace_dquote]
        have hq4 := mem_dropWhile_of_mem _ afterEq dquote hq3 isJsWhiteSpace_dquote
        cases h3 : afterEq.dropWhile isJsWhiteSpace with
        | nil => rw [h3] at hq4; cases hq4
        | cons q afterQuote =>
          simp only [List.cons_append]
          by_cases hqq : q = dquote
          · simp only [hqq, ne_eq, not_true_eq_false, if_false, Option.map_some']
          · simp only [ne_eq, hqq, not_false_eq_true, if_true, Option.map_none']
      · simp only [ne_eq, he, not_false_eq_true, if_true, Option.map_none']

theorem isCargoHeader_mem_dquote (h : Str) (hh : IsCargoHeader h) : dquote ∈ h := by
  obtain ⟨w1, w2, rfl, -, -⟩ := hh
  simp

theorem matchCargoVersionHere_sound (s h v a : Str)
    (hm : matchCargoVersionHere s = some (h, v, a)) :
    s = h ++ (v ++ dquote :: a) ∧ IsCargoHeader h ∧ v ≠ [] ∧ dquote ∉ v := by
  unfold matchCargoVersionHere at hm
  cases h1 : matchCargoHeader s with
  | none => rw [h1] at hm; cases hm
  | some r =>
    obtain ⟨hd, aq⟩ := r
    rw [h1] at hm
    dsimp only at hm
    cases h2 : matchCargoValue aq with
    | none => rw [h2] at hm; cases hm
    | some r2 =>
      obtain ⟨v2, a2⟩ := r2
      rw [h2] at hm
      simp only [Option.some.injEq, Prod.mk.injEq] at hm
      obtain ⟨rfl, rfl, rfl⟩ := hm
      obtain ⟨hs, hh⟩ := matchCargoHeader_sound _ _ _ h1
      obtain ⟨haq, hv, hq⟩ := matchCargoValue_sound _ _ _ h2
      exact ⟨by rw [hs, haq], hh, hv, hq⟩

theorem matchCargoVersionHere_complete (h v a : Str) (hh : IsCargoHeader h) (hv : v ≠ [])
    (hq : dquote ∉ v) : matchCargoVersionHere (h ++ (v ++ dquote :: a)) = some (h, v, a) := by
  unfold matchCargoVersionHere
  rw [matchCargoHeader_complete _ _ hh]
  dsimp only
  rw [matchCargoValue_complete _ _ hv hq]

/-- Replacing the value that follows a header cannot turn a position where the tail of the
pattern does not match into one where it does. -/
theorem matchCargoVersionHere_none_of_replace (x h v V a : Str) (hh : IsCargoHeader h)
    (hv : v ≠ []) (hq : dquote ∉ v)
    (hnone : matchCargoVersionHere (x ++ (h ++ (v ++ dquote :: a))) = none) :
    matchCargoVersionHere (x ++ (h ++ (V ++ dquote :: a))) = none := by
  have hmem : dquote ∈ x ++ h :=
    List.mem_append.mpr (Or.inr (isCargoHeader_mem_dquote _ hh))
  unfold matchCargoVersionHere at hnone ⊢
  rw [← List.append_assoc, matchCargoHeader_append_of_mem _ _ hmem] at hnone ⊢
  cases h1 : matchCargoHeader (x ++ h) with
  | none => rfl
  | some r =>
    obtain ⟨hd, aq⟩ := r
    rw [h1] at hnone
    simp only [Option.map_some'] at hnone ⊢
    by_cases haq : dquote ∈ aq
    · rw [matchCargoValue_append_of_mem _ _ haq] at hnone ⊢
      cases h2 : matchCargoValue aq with
      | none => rfl
      | some r2 => rw [h2] at hnone; simp at hnone
    · exfalso
      have hval : matchCargoValue (aq ++ (v ++ dquote :: a)) = some (aq ++ v, a) := by
        rw [← List.append_assoc]
        refine matchCargoValue_complete _ _ ?_ ?_
        · intro h0
          exact hv (List.append_eq_nil.mp h0).2
        · intro hm
          rcases List.mem_append.mp hm with h | h
          · exact haq h
          · exact hq h
      rw [hval] at hnone
      cases hnone

theorem matchCargoLazy_of_here (s : Str) (r : Str × Str × Str)
    (h : matchCargoVersionHere s = some r) : matchCargoLazy s = some ([], r) := by
  cases s with
  | nil => cases h
  | cons c rest =>
    unfold matchCargoLazy
    rw [h]

theorem matchCargoLazy_sound (s : Str) : ∀ (sk h v a : Str),
    matchCargoLazy s = some (sk, h, v, a) →
    s = sk ++ (h ++ (v ++ dquote :: a)) ∧ IsCargoHeader h ∧ v ≠ [] ∧ dquote ∉ v := by
  induction s with
  | nil => intro sk h v a hm; cases hm
  | cons c rest ih =>
    intro sk h v a hm
    unfold matchCargoLazy at hm
    cases h1 : matchCargoVersionHere (c :: rest) with
    | some r =>
      obtain ⟨h', v', a'⟩ := r
      rw [h1] at hm
      simp only [Option.some.injEq, Prod.mk.injEq] at hm
      obtain ⟨rfl, rfl, rfl, rfl⟩ := hm
      exact matchCargoVersionHere_sound _ _ _ _ h1
    | none =>
      rw [h1] at hm
      dsimp only at hm
      cases h2 : matchCargoLazy rest with
      | none => rw [h2] at hm; cases hm
      | some r =>
        obtain ⟨sk0, h', v', a'⟩ := r
        rw [h2] at hm
        simp only [Option.some.injEq, Prod.mk.injEq] at hm
        obtain ⟨rfl, rfl, rfl, rfl⟩ := hm
        obtain ⟨hs, hh, hv, hq⟩ := ih _ _ _ _ h2
        exact ⟨by rw [hs]; rfl, hh, hv, hq⟩

theorem matchCargoLazy_replace (s : Str) (V : Str) (hV : V ≠ []) (hVq : dquote ∉ V) :
    ∀ (sk h v a : Str), matchCargoLazy s = some (sk, h, v, a) →
    matchCargoLazy (sk ++ (h ++ (V ++ dquote :: a))) = some (sk, h, V, a) := by
  induction s with
  | nil => intro sk h v a hm; cases hm
  | cons c rest ih =>
    intro sk h v a hm
    unfold matchCargoLazy at hm
    cases h1 : matchCargoVersionHere (c :: rest) with
    | some r =>
      obtain ⟨h', v', a'⟩ := r
      rw [h1] at hm
      simp only [Option.some.injEq, Prod.mk.injEq] at hm
      obtain ⟨rfl, rfl, rfl, rfl⟩ := hm
      obtain ⟨-, hh, -, -⟩ := matchCargoVersionHere_sound _ _ _ _ h1
      rw [List.nil_append]
      exact matchCargoLazy_of_here _ _ (matchCargoVersionHere_complete _ _ _ hh hV hVq)
    | none =>
      rw [h1] at hm
      dsimp only at hm
      cases h2 : matchCargoLazy rest with
      | none => rw [h2] at hm; cases hm
      | some r =>
        obtain ⟨sk0, h', v', a'⟩ := r
        rw [h2] at hm
        simp only [Option.some.injEq, Prod.mk.injEq] at hm
        obtain ⟨rfl, rfl, rfl, rfl⟩ := hm
        obtain ⟨hs, hh, hv, hq⟩ := matchCargoLazy_sound _ _ _ _ _ h2
        have hnone : matchCargoVersionHere ((c :: sk0) ++ (h' ++ (V ++ dquote :: a'))) =
            none := by
          refine matchCargoVersionHere_none_of_replace _ _ v' _ _ hh hv hq ?_
          rw [List.cons_append, ← hs]
          exact h1
        rw [List.cons_append] at hnone ⊢
        unfold matchCargoLazy
        rw [hnone]
        dsimp only
        rw [ih _ _ _ _ h2]

theorem matchCargoLazy_isSome_of_here (Y : Str) (r : Str × Str × Str)
    (h : matchCargoVersionHere Y = some r) (x : Str) :
    (matchCargoLazy (x ++ Y)).isSome = true := by
  induction x with
  | nil => rw [List.nil_append, matchCargoLazy_of_here _ _ h]; rfl
  | cons c xs ih =>
    rw [List.cons_append]
    unfold matchCargoLazy
    cases h1 : matchCargoVersionHere (c :: (xs ++ Y)) with
    | some r1 => rfl
    | none =>
      dsimp only
      cases h2 : matchCargoLazy (xs ++ Y) with
      | none => rw [h2] at ih; cases ih
      | some r2 => rfl

theorem dropPrefix?_append_of_length (P U Y : Str) (hlen : P.length ≤ U.length) :
    dropPrefix? P (U ++ Y) = (dropPrefix? P U).map (fun r => r ++ Y) := by
  induction P generalizing U with
  | nil => simp [dropPrefix?]
  | cons a P ih =>
    cases U with
    | nil => simp at hlen
    | cons d ds =>
      by_cases had : a = d
      · subst had
        simp only [List.cons_append, dropPrefix?, if_true]
        exact ih ds (by simpa using hlen)
      · simp only [List.cons_append, dropPrefix?, if_neg had, Option.map_none']

theorem matchCargoAt_sound (s sk h v a : Str) (hm : matchCargoAt s = some (sk, h, v, a)) :
    s = "[package]".toList ++ (sk ++ (h ++ (v ++ dquote :: a))) ∧ IsCargoHeader h ∧ v ≠ [] ∧
      dquote ∉ v := by
  unfold matchCargoAt at hm
  cases h1 : dropPrefix? "[package]".toList s with
  | none => rw [h1] at hm; cases hm
  | some rest =>
    rw [h1] at hm
    dsimp only at hm
    obtain ⟨hs, hh, hv, hq⟩ := matchCargoLazy_sound _ _ _ _ _ hm
    refine ⟨?_, hh, hv, hq⟩
    rw [(dropPrefix?_eq_some_iff _ _ _).mp h1, hs]

theorem matchCargoAt_replace (s sk h v a V : Str) (hV : V ≠ []) (hVq : dquote ∉ V)
    (hm : matchCargoAt s = some (sk, h, v, a)) :
    matchCargoAt ("[package]".toList ++ (sk ++ (h ++ (V ++ dquote :: a)))) =
      some (sk, h, V, a) := by
  unfold matchCargoAt at hm ⊢
  cases h1 : dropPrefix? "[package]".toList s with
  | none => rw [h1] at hm; cases hm
  | some rest =>
    rw [h1] at hm
    dsimp only at hm
    rw [(dropPrefix?_eq_some_iff _ _ _).mpr rfl]
    dsimp only
    exact matchCargoLazy_replace _ V hV hVq _ _ _ _ hm

/-- A position before the first match stays a position where the pattern does not match
when the value of that first match is replaced. -/
theorem matchCargoAt_none_of_replace (c : Char) (B sk h v a V : Str) (hh : IsCargoHeader h)
    (hv : v ≠ []) (hq : dquote ∉ v)
    (hnone : matchCargoAt (c :: (B ++ ("[package]".toList ++ (sk ++ (h ++ (v ++ dquote :: a))))))
      = none) :
    matchCargoAt (c :: (B ++ ("[package]".toList ++ (sk ++ (h ++ (V ++ dquote :: a)))))) =
      none := by
  have hlen : "[package]".toList.length ≤ (c :: (B ++ "[package]".toList)).length := by
    simp
  have hsplit : ∀ X : Str, c :: (B ++ ("[package]".toList ++ X)) =
      (c :: (B ++ "[package]".toList)) ++ X := by
    intro X; simp only [List.cons_append, List.append_assoc]
  unfold matchCargoAt at hnone ⊢
  rw [hsplit, dropPrefix?_append_of_length _ _ _ hlen] at hnone ⊢
  cases h1 : dropPrefix? "[package]".toList (c :: (B ++ "[package]".toList)) with
  | none => rfl
  | some r0 =>
    exfalso
    rw [h1] at hnone
    simp only [Option.map_some'] at hnone
    have hsome := matchCargoLazy_isSome_of_here _ _
      (matchCargoVersionHere_complete h v a hh hv hq) (r0 ++ sk)
    rw [List.append_assoc, hnone] at hsome
    cases hsome

theorem withValue_eq (m : CargoMatch) (V : Str) :
    m.withValue V = m.before ++ ("[package]".toList ++ (m.skipped ++ (m.header ++
      (V ++ dquote :: m.after)))) := by
  simp only [CargoMatch.withValue, CargoMatch.group1, List.append_assoc]

theorem execCargoVersionPattern_of_at (s sk h v a : Str)
    (hm : matchCargoAt s = some (sk, h, v, a)) :
    execCargoVersionPattern s = some ⟨[], sk, h, v, a⟩ := by
  cases s with
  | nil => cases hm
  | cons c rest =>
    unfold execCargoVersionPattern
    rw [hm]

/-- A match of `cargoVersionPattern` splits the text as its fields say: the text before
the match, `[package]`, the skipped text, the header through the opening quote, a
non-empty value without a double quote, the closing quote and the rest. -/
theorem execCargoVersionPattern_sound (t : Str) : ∀ m : CargoMatch,
    execCargoVersionPattern t = some m →
    t = m.withValue m.value ∧ IsCargoHeader m.header ∧ m.value ≠ [] ∧ dquote ∉ m.value := by
  induction t with
  | nil => intro m hm; cases hm
  | cons c rest ih =>
    intro m hm
    unfold execCargoVersionPattern at hm
    cases h1 : matchCargoAt (c :: rest) with
    | some r =>
      obtain ⟨sk, h, v, a⟩ := r
      rw [h1] at hm
      simp only [Option.some.injEq] at hm
      subst hm
      obtain ⟨hs, hh, hv, hq⟩ := matchCargoAt_sound _ _ _ _ _ h1
      exact ⟨by rw [hs, withValue_eq]; rfl, hh, hv, hq⟩
    | none =>
      rw [h1] at hm
      dsimp only at hm
      cases h2 : execCargoVersionPattern rest with
      | none => rw [h2] at hm; cases hm
      | some m0 =>
        rw [h2] at hm
        simp only [Option.some.injEq] at hm
        subst hm
        obtain ⟨hs, hh, hv, hq⟩ := ih m0 h2
        refine ⟨?_, hh, hv, hq⟩
        rw [withValue_eq] at hs ⊢
        show c :: rest = (c :: m0.before) ++ _
        rw [List.cons_append]
        exact congrArg (List.cons c) hs

/-- Replacing the value of the first match by a non-empty text without a double quote
leaves the first match where it was, now with the new value. -/
theorem execCargoVersionPattern_replace (t V : Str) (hV : V ≠ []) (hVq : dquote ∉ V) :
    ∀ m : CargoMatch, execCargoVersionPattern t = some m →
    execCargoVersionPattern (m.withValue V) = some { m with value := V } := by
  induction t with
  | nil => intro m hm; cases hm
  | cons c rest ih =>
    intro m hm
    unfold execCargoVersionPattern at hm
    cases h1 : matchCargoAt (c :: rest) with
    | some r =>
      obtain ⟨sk, h, v, a⟩ := r
      rw [h1] at hm
      simp only [Option.some.injEq] at hm
      subst hm
      rw [withValue_eq]
      exact execCargoVersionPattern_of_at _ _ _ _ _
        (matchCargoAt_replace _ _ _ _ _ V hV hVq h1)
    | none =>
      rw [h1] at hm
      dsimp only at hm
      cases h2 : execCargoVersionPattern rest with
      | none => rw [h2] at hm; cases hm
      | some m0 =>
        rw [h2] at hm
        simp only [Option.some.injEq] at hm
        subst hm
        obtain ⟨hs, hh, hv, hq⟩ := execCargoVersionPattern_sound _ _ h2
        have hnone : matchCargoAt (c :: m0.withValue V) = none := by
          rw [withValue_eq]
          refine matchCargoAt_none_of_replace c m0.before m0.skipped m0.header m0.value
            m0.after V hh hv hq ?_
          have : c :: rest = c :: m0.withValue m0.value := congrArg (List.cons c) hs
          rw [this, withValue_eq] at h1
          exact h1
        have hw : ({ m0 with before := c :: m0.before } : CargoMatch).withValue V =
            c :: m0.withValue V := rfl
        rw [hw]
        unfold execCargoVersionPattern
        rw [hnone]
        dsimp only
        rw [ih m0 h2]

theorem getSubstitution_plain (matched before after g1 g2 V rest : Str) (hV : '$' ∉ V) :
    getSubstitution matched before after g1 g2 (V ++ rest) =
      V ++ getSubstitution matched before after g1 g2 rest := by
  induction V with
  | nil => rfl
  | cons c cs ih =>
    have hc : c ≠ '$' := fun h => hV (h ▸ List.mem_cons_self _ _)
    rw [List.cons_append, getSubstitution.eq_def]
    simp only [if_neg hc]
    rw [ih (fun h => hV (List.mem_cons_of_mem _ h))]
    rfl

theorem getSubstitution_template (matched before after g1 g2 V : Str) (hV : '$' ∉ V) :
    getSubstitution matched before after g1 g2 ("$1".toList ++ (V ++ "$2".toList)) =
      g1 ++ (V ++ g2) := by
  have h1 : getSubstitution matched before after g1 g2 ("$1".toList ++ (V ++ "$2".toList)) =
      g1 ++ getSubstitution matched before after g1 g2 (V ++ "$2".toList) := by
    show getSubstitution matched before after g1 g2 ('$' :: '1' :: (V ++ "$2".toList)) = _
    rw [getSubstitution.eq_def]
    simp [backtick, squote]
  have h2 : getSubstitution matched before after g1 g2 "$2".toList = g2 := by
    show getSubstitution matched before after g1 g2 ['$', '2'] = _
    rw [getSubstitution.eq_def]
    simp [backtick, squote, getSubstitution]
  rw [h1, getSubstitution_plain _ _ _ _ _ _ _ hV, h2]

/-- What the `replace` call of the Cargo step computes for a version without `$`: the text
with the value of the first match replaced by the version. -/
theorem replaceCargoVersion_of_match (t V : Str) (m : CargoMatch) (hV : '$' ∉ V)
    (hm : execCargoVersionPattern t = some m) :
    replaceCargoVersion t V = some (m.withValue V) := by
  unfold replaceCargoVersion
  rw [hm]
  dsimp only
  rw [getSubstitution_template _ _ _ _ _ _ hV]
  simp only [CargoMatch.withValue, List.append_assoc, List.cons_append, List.nil_append]

theorem replaceCargoVersion_isSome (t V : Str) :
    (replaceCargoVersion t V).isSome = (execCargoVersionPattern t).isSome := by
  unfold replaceCargoVersion
  cases execCargoVersionPattern t <;> rfl

/-- Replacing twice with the same version, non-empty and without `"` and `$`, changes
nothing the second time. -/
theorem replaceCargoVersion_idempotent (t t' V : Str) (hV : V ≠ []) (hVq : dquote ∉ V)
    (hVd : '$' ∉ V) (h : replaceCargoVersion t V = some t') :
    replaceCargoVersion t' V = some t' := by
  cases hm : execCargoVersionPattern t with
  | none =>
    have := replaceCargoVersion_isSome t V
    rw [h, hm] at this
    cases this
  | some m =>
    rw [replaceCargoVersion_of_match t V m hVd hm] at h
    injection h with h
    subst h
    have h2 := execCargoVersionPattern_replace t V hV hVq m hm
    rw [replaceCargoVersion_of_match _ V _ hVd h2]
    rfl

/-! ### Files -/

theorem readText_writeText_same (files : Files) (path text : Str) :
    readText (writeText path text files) path = some text := by
  unfold readText
  induction files with
  | nil => simp [writeText, List.lookup]
  | cons e rest ih =>
    obtain ⟨p, t⟩ := e
    by_cases hp : p = path
    · subst hp; simp [writeText, List.lookup]
    · simp only [writeText, if_neg hp, lookup_cons_ite, if_neg (Ne.symm hp)]
      exact ih

theorem readText_writeText_other (files : Files) (path text q : Str) (hq : q ≠ path) :
    readText (writeText path text files) q = readText files q := by
  unfold readText
  induction files with
  | nil => simp only [writeText, lookup_cons_ite, if_neg hq]
  | cons e rest ih =>
    obtain ⟨p, t⟩ := e
    by_cases hp : p = path
    · subst hp
      simp only [writeText, if_true, lookup_cons_ite, if_neg hq]
    · simp only [writeText, if_neg hp, lookup_cons_ite]
      rw [ih]

/-! ### `path.join` -/

theorem splitOnSlash_ne_nil (a : Str) : splitOnSlash a ≠ [] := by
  cases a with
  | nil => simp [splitOnSlash]
  | cons c rest =>
    unfold splitOnSlash
    by_cases hc : c = '/'
    · simp [hc]
    · rw [if_neg hc]
      cases splitOnSlash rest <;> simp

theorem splitOnSlash_append_slash (a b : Str) :
    splitOnSlash (a ++ '/' :: b) = splitOnSlash a ++ splitOnSlash b := by
  induction a with
  | nil => simp [splitOnSlash]
  | cons c rest ih =>
    rw [List.cons_append, splitOnSlash, splitOnSlash.eq_def (c :: rest)]
    by_cases hc : c = '/'
    · simp only [hc, if_true, ih, List.cons_append]
    · simp only [if_neg hc, ih]
      cases hs : splitOnSlash rest with
      | nil => exact absurd hs (splitOnSlash_ne_nil rest)
      | cons s ss => simp

theorem splitOnSlash_of_not_mem (n : Str) (hn : '/' ∉ n) : splitOnSlash n = [n] := by
  induction n with
  | nil => rfl
  | cons c rest ih =>
    have hc : c ≠ '/' := fun h => hn (h ▸ List.mem_cons_self _ _)
    rw [splitOnSlash, if_neg hc, ih (fun h => hn (List.mem_cons_of_mem _ h))]

theorem normalizeSegments_append_name (allow : Bool) (n : Str) (h0 : n ≠ [])
    (h1 : n ≠ ['.']) (h2 : n ≠ ['.', '.']) (xs : List Str) :
    ∀ kept, ∃ ys, normalizeSegments allow kept (xs ++ [n]) = ys ++ [n] := by
  induction xs with
  | nil =>
    intro kept
    refine ⟨kept.reverse, ?_⟩
    simp [normalizeSegments, h0, h1, h2]
  | cons seg rest ih =>
    intro kept
    rw [List.cons_append]
    unfold normalizeSegments
    split
    · exact ih _
    · split
      · split
        · split
          · split
            · exact ih _
            · exact ih _
          · exact ih _
        · split
          · exact ih _
          · exact ih _
      · exact ih _

theorem joinSegments_append_name (n : Str) (xs : List Str) :
    joinSegments (xs ++ [n]) = n ∨ ∃ B, joinSegments (xs ++ [n]) = B ++ '/' :: n := by
  induction xs with
  | nil => exact Or.inl rfl
  | cons x rest ih =>
    right
    have hne : rest ++ [n] ≠ [] := by simp
    have hj : joinSegments (x :: (rest ++ [n])) = x ++ '/' :: joinSegments (rest ++ [n]) := by
      cases hr : rest ++ [n] with
      | nil => exact absurd hr hne
      | cons y ys => rfl
    rw [List.cons_append, hj]
    rcases ih with h | ⟨B, h⟩
    · exact ⟨x, by rw [h]⟩
    · exact ⟨x ++ '/' :: B, by rw [h]; simp⟩

/-- The path `path.join` builds ends with its last argument when that is a plain file
name. -/
theorem pathJoin_suffix (dir : Str) (segs : List Str) (n : Str) (h0 : n ≠ [])
    (h1 : n ≠ ['.']) (h2 : n ≠ ['.', '.']) (hs : '/' ∉ n) :
    n <:+ pathJoin dir (segs ++ [n]) := by
  have hfilter : (dir :: (segs ++ [n])).filter (fun s => s ≠ [])
      = (dir :: segs).filter (fun s => s ≠ []) ++ [n] := by
    rw [← List.cons_append, List.filter_append]
    simp [h0]
  unfold pathJoin
  rw [hfilter]
  generalize (dir :: segs).filter (fun s => s ≠ []) = xs
  have hne : xs ++ [n] ≠ [] := by simp
  rw [if_neg hne]
  obtain ⟨zs, hB, hsplit⟩ : ∃ zs, (∃ B, joinSegments (xs ++ [n]) = B ++ n) ∧
      splitOnSlash (joinSegments (xs ++ [n])) = zs ++ [n] := by
    rcases joinSegments_append_name n xs with h | ⟨B, h⟩
    · exact ⟨[], ⟨[], by rw [h]; rfl⟩, by rw [h, splitOnSlash_of_not_mem n hs]; rfl⟩
    · refine ⟨splitOnSlash B, ⟨B ++ ['/'], by rw [h]; simp⟩, ?_⟩
      rw [h, splitOnSlash_append_slash, splitOnSlash_of_not_mem n hs]
  obtain ⟨B, hB⟩ := hB
  have hjne : joinSegments (xs ++ [n]) ≠ [] := by
    rw [hB]; intro h; exact h0 (List.append_eq_nil.mp h).2
  have htrail : (joinSegments (xs ++ [n])).getLast? ≠ some '/' := by
    rw [hB, List.getLast?_append_of_ne_nil _ h0]
    intro h
    exact hs (List.mem_of_getLast?_eq_some h)
  unfold posixNormalize
  rw [if_neg hjne, hsplit]
  obtain ⟨ys, hys⟩ := normalizeSegments_append_name
    (!decide ((joinSegments (xs ++ [n])).head? = some '/')) n h0 h1 h2 zs []
  simp only [hys, htrail, decide_False, Bool.false_eq_true, if_false, List.append_nil]
  have hres : ∃ A, joinSegments (ys ++ [n]) = A ++ n := by
    rcases joinSegments_append_name n ys with h | ⟨A, h⟩
    · exact ⟨[], by rw [h]; rfl⟩
    · exact ⟨A ++ ['/'], by rw [h]; simp⟩
  obtain ⟨A, hA⟩ := hres
  have hresne : joinSegments (ys ++ [n]) ≠ [] := by
    rw [hA]; intro h; exact h0 (List.append_eq_nil.mp h).2
  rw [if_neg hresne, hA]
  exact ⟨_, List.append_assoc _ _ _⟩

/-- `path.join` on the inputs that show its normalisation: a trailing separator of the
directory, an empty directory, `.` and `..` segments, repeated separators. -/
theorem pathJoin_examples :
    pathJoin "/app".toList ["src-tauri".toList, "Cargo.toml".toList] =
      "/app/src-tauri/Cargo.toml".toList ∧
    pathJoin "/tmp/sv/src/".toList ["pyproject.toml".toList] =
      "/tmp/sv/src/pyproject.toml".toList ∧
    pathJoin [] ["package.json".toList] = "package.json".toList ∧
    pathJoin "/".toList ["package.json".toList] = "/package.json".toList ∧
    pathJoin "/a/../b/./c//".toList ["x".toList] = "/b/c/x".toList ∧
    pathJoin "a/../..".toList ["x".toList] = "../x".toList ∧
    pathJoin "/..".toList ["x".toList] = "/x".toList ∧
    pathJoin [] [] = ".".toList := by
  decide

theorem packageJsonPath_suffix (root : Str) : "package.json".toList <:+ packageJsonPath root :=
  pathJoin_suffix root [] _ (by decide) (by decide) (by decide) (by decide)

theorem tauriConfigPath_suffix (root : Str) :
    "tauri.conf.json".toList <:+ tauriConfigPath root :=
  pathJoin_suffix root ["src-tauri".toList] _ (by decide) (by decide) (by decide) (by decide)

theorem cargoTomlPath_suffix (root : Str) : "Cargo.toml".toList <:+ cargoTomlPath root :=
  pathJoin_suffix root ["src-tauri".toList] _ (by decide) (by decide) (by decide) (by decide)

theorem packageJsonPath_ne_tauriConfigPath (root : Str) :
    packageJsonPath root ≠ tauriConfigPath root := by
  intro h
  have s1 := packageJsonPath_suffix root
  rw [h] at s1
  have := List.suffix_of_suffix_length_le s1 (tauriConfigPath_suffix root) (by decide)
  revert this
  decide

theorem packageJsonPath_ne_cargoTomlPath (root : Str) :
    packageJsonPath root ≠ cargoTomlPath root := by
  intro h
  have s1 := packageJsonPath_suffix root
  rw [h] at s1
  have := List.suffix_of_suffix_length_le (cargoTomlPath_suffix root) s1 (by decide)
  revert this
  decide

theorem tauriConfigPath_ne_cargoTomlPath (root : Str) :
    tauriConfigPath root ≠ cargoTomlPath root := by
  intro h
  have s1 := tauriConfigPath_suffix root
  rw [h] at s1
  have := List.suffix_of_suffix_length_le (cargoTomlPath_suffix root) s1 (by decide)
  revert this
  decide

/-! ### `syncDesktopVersionFiles` -/

theorem isString_eq_true (version : Str) (v : JsVal) (h : v.isString version = true) :
    v = .string version := by
  cases v <;> simp [JsVal.isString] at h
  rw [h]

theorem syncJsonVersion_frame (json : JsonCodec) (path version q : Str) (w : World)
    (hq : q ≠ path) :
    readText (syncJsonVersion json path version w).2.files q = readText w.files q := by
  unfold syncJsonVersion
  cases readText w.files path with
  | none => rfl
  | some text =>
    dsimp only
    cases json.parse text with
    | none => rfl
    | some doc =>
      dsimp only
      cases readVersion doc with
      | error e => rfl
      | ok current =>
        dsimp only
        split
        · rfl
        · cases assignVersion version doc with
          | error e => rfl
          | ok updated => exact readText_writeText_other _ _ _ _ hq

theorem syncCargoVersion_frame (path version q : Str) (w : World) (hq : q ≠ path) :
    readText (syncCargoVersion path version w).2.files q = readText w.files q := by
  unfold syncCargoVersion
  cases readText w.files path with
  | none => rfl
  | some cargoToml =>
    dsimp only
    cases replaceCargoVersion cargoToml version with
    | none => rfl
    | some updated =>
      dsimp only
      split
      · exact readText_writeText_other _ _ _ _ hq
      · rfl

theorem jsonVersionIs_congr (json : JsonCodec) (files files' : Files) (path version : Str)
    (h : readText files' path = readText files path)
    (hv : JsonVersionIs json files path version) : JsonVersionIs json files' path version := by
  obtain ⟨text, doc, h1, h2, h3⟩ := hv
  exact ⟨text, doc, h.trans h1, h2, h3⟩

theorem jsonObjectRoundTrip_congr (json : JsonCodec) (files files' : Files)
    (path version : Str) (h : readText files' path = readText files path)
    (hv : JsonObjectRoundTrip json files path version) :
    JsonObjectRoundTrip json files' path version := by
  intro text doc h1 h2
  exact hv text doc (h ▸ h1) h2

/-- After a JSON step that did not throw, the document has the version. -/
theorem syncJsonVersion_versionIs (json : JsonCodec) (path version : Str) (w w1 : World)
    (hrt : JsonObjectRoundTrip json w.files path version)
    (hrun : syncJsonVersion json path version w = (.ok (), w1)) :
    JsonVersionIs json w1.files path version := by
  unfold syncJsonVersion at hrun
  cases h1 : readText w.files path with
  | none => rw [h1] at hrun; cases hrun
  | some text =>
    rw [h1] at hrun
    dsimp only at hrun
    cases h2 : json.parse text with
    | none => rw [h2] at hrun; cases hrun
    | some doc =>
      rw [h2] at hrun
      dsimp only at hrun
      obtain ⟨members, hdoc, doc', hparse, hver⟩ := hrt text doc h1 h2
      subst hdoc
      simp only [readVersion] at hrun
      split at hrun
      · rename_i hcur
        injection hrun with _ hw
        subst hw
        refine ⟨text, _, h1, h2, ?_⟩
        simp only [readVersion]
        cases hl : List.lookup "version".toList members with
        | none => rw [hl] at hcur; cases hcur
        | some v =>
          rw [hl] at hcur
          simp only [Option.map_some', Option.getD_some] at hcur
          rw [isString_eq_true _ _ hcur]
      · simp only [assignVersion] at hrun
        injection hrun with _ hw
        subst hw
        exact ⟨_, doc', readText_writeText_same _ _ _, hparse, hver⟩

/-- A JSON step on a document that already has the version does nothing. -/
theorem syncJsonVersion_of_versionIs (json : JsonCodec) (path version : Str) (w : World)
    (h : JsonVersionIs json w.files path version) :
    syncJsonVersion json path version w = (.ok (), w) := by
  obtain ⟨text, doc, h1, h2, h3⟩ := h
  unfold syncJsonVersion
  rw [h1]
  dsimp only
  rw [h2]
  dsimp only
  rw [h3]
  simp [JsVal.isString]

theorem syncCargoVersion_result (path V : Str) (w w1 : World) (hVd : '$' ∉ V)
    (hrun : syncCargoVersion path V w = (.ok (), w1)) :
    ∃ cargoToml m, readText w.files path = some cargoToml ∧
      execCargoVersionPattern cargoToml = some m ∧
      readText w1.files path = some (m.withValue V) := by
  unfold syncCargoVersion at hrun
  cases h1 : readText w.files path with
  | none => rw [h1] at hrun; cases hrun
  | some t =>
    rw [h1] at hrun
    dsimp only at hrun
    cases hm : execCargoVersionPattern t with
    | none =>
      have := replaceCargoVersion_isSome t V
      rw [hm] at this
      cases h2 : replaceCargoVersion t V with
      | none => rw [h2] at hrun; cases hrun
      | some t' => rw [h2] at this; cases this
    | some m =>
      rw [replaceCargoVersion_of_match t V m hVd hm] at hrun
      dsimp only at hrun
      refine ⟨t, m, rfl, hm, ?_⟩
      split at hrun
      · injection hrun with _ hw
        subst hw
        exact readText_writeText_same _ _ _
      · rename_i heq
        injection hrun with _ hw
        subst hw
        rw [h1]
        have : m.withValue V = t := by simpa using heq
        rw [this]

theorem syncCargoVersion_idempotent (path V : Str) (w w1 : World) (hV : V ≠ [])
    (hVq : dquote ∉ V) (hVd : '$' ∉ V)
    (hrun : syncCargoVersion path V w = (.ok (), w1)) :
    syncCargoVersion path V w1 = (.ok (), w1) := by
  obtain ⟨t, m, h1, hm, h2⟩ := syncCargoVersion_result path V w w1 hVd hrun
  have hrep : replaceCargoVersion (m.withValue V) V = some (m.withValue V) :=
    replaceCargoVersion_idempotent t _ V hV hVq hVd (replaceCargoVersion_of_match t V m hVd hm)
  unfold syncCargoVersion
  rw [h2]
  dsimp only
  rw [hrep]
  simp

theorem syncDesktopVersionFiles_steps (json : JsonCodec) (root V : Str) (w w' : World)
    (hrun : syncDesktopVersionFiles json root V w = (.ok (), w')) :
    ∃ w1 w2, syncJsonVersion json (packageJsonPath root) V w = (.ok (), w1) ∧
      syncJsonVersion json (tauriConfigPath root) V w1 = (.ok (), w2) ∧
      syncCargoVersion (cargoTomlPath root) V w2 = (.ok (), w') := by
  unfold syncDesktopVersionFiles at hrun
  cases h1 : syncJsonVersion json (packageJsonPath root) V w with
  | mk o1 w1 =>
    rw [h1] at hrun
    cases o1 with
    | error e => cases hrun
    | ok u =>
      dsimp only at hrun
      cases h2 : syncJsonVersion json (tauriConfigPath root) V w1 with
      | mk o2 w2 =>
        rw [h2] at hrun
        cases o2 with
        | error e => cases hrun
        | ok u2 =>
          dsimp only at hrun
          exact ⟨w1, w2, rfl, h2, hrun⟩

/-- After a call that completed, both JSON descriptors have the version, and `Cargo.toml`
went through the Cargo step unchanged by the JSON steps. -/
theorem syncDesktopVersionFiles_versions (json : JsonCodec) (root V : Str) (w w' : World)
    (hpkg : JsonObjectRoundTrip json w.files (packageJsonPath root) V)
    (htauri : JsonObjectRoundTrip json w.files (tauriConfigPath root) V)
    (hrun : syncDesktopVersionFiles json root V w = (.ok (), w')) :
    JsonVersionIs json w'.files (packageJsonPath root) V ∧
    JsonVersionIs json w'.files (tauriConfigPath root) V ∧
    ∃ w2, syncCargoVersion (cargoTomlPath root) V w2 = (.ok (), w') ∧
      readText w2.files (cargoTomlPath root) = readText w.files (cargoTomlPath root) := by
  obtain ⟨w1, w2, h1, h2, h3⟩ := syncDesktopVersionFiles_steps json root V w w' hrun
  have f1 : ∀ q, q ≠ packageJsonPath root → readText w1.files q = readText w.files q := by
    intro q hq
    have := syncJsonVersion_frame json (packageJsonPath root) V q w hq
    rw [h1] at this
    exact this
  have f2 : ∀ q, q ≠ tauriConfigPath root → readText w2.files q = readText w1.files q := by
    intro q hq
    have := syncJsonVersion_frame json (tauriConfigPath root) V q w1 hq
    rw [h2] at this
    exact this
  have f3 : ∀ q, q ≠ cargoTomlPath root → readText w'.files q = readText w2.files q := by
    intro q hq
    have := syncCargoVersion_frame (cargoTomlPath root) V q w2 hq
    rw [h3] at this
    exact this
  have v1 := syncJsonVersion_versionIs json _ V w w1 hpkg h1
  have v2 := syncJsonVersion_versionIs json _ V w1 w2
    (jsonObjectRoundTrip_congr json _ _ _ V
      (f1 _ (packageJsonPath_ne_tauriConfigPath root).symm) htauri) h2
  refine ⟨?_, ?_, w2, h3, ?_⟩
  · refine jsonVersionIs_congr json _ _ _ V ?_ v1
    rw [f3 _ (packageJsonPath_ne_cargoTomlPath root), f2 _ (packageJsonPath_ne_tauriConfigPath root)]
  · refine jsonVersionIs_congr json _ _ _ V ?_ v2
    rw [f3 _ (tauriConfigPath_ne_cargoTomlPath root)]
  · rw [f2 _ (tauriConfigPath_ne_cargoTomlPath root).symm,
      f1 _ (packageJsonPath_ne_cargoTomlPath root).symm]

/-- C2, amended: when `syncDesktopVersionFiles` completes for a version `V` that holds
neither `"` nor `$`, on a project whose two JSON descriptors are objects that survive
`JSON.stringify` and `JSON.parse`, then the parsed `package.json` and the parsed
`tauri.conf.json` have `version = V`, and `Cargo.toml` is its former text with the value
of the first match of the pattern replaced by `V`: the quoted value there is exactly `V`,
and for a non-empty `V` reading the descriptor back gives `V`. -/
theorem syncDesktopVersionFiles_round_trip (json : JsonCodec) (root V : Str) (w w' : World)
    (hVq : dquote ∉ V) (hVd : '$' ∉ V)
    (hpkg : JsonObjectRoundTrip json w.files (packageJsonPath root) V)
    (htauri : JsonObjectRoundTrip json w.files (tauriConfigPath root) V)
    (hrun : syncDesktopVersionFiles json root V w = (.ok (), w')) :
    JsonVersionIs json w'.files (packageJsonPath root) V ∧
    JsonVersionIs json w'.files (tauriConfigPath root) V ∧
    ∃ cargoToml m, readText w.files (cargoTomlPath root) = some cargoToml ∧
      execCargoVersionPattern cargoToml = some m ∧
      readText w'.files (cargoTomlPath root) = some (m.withValue V) ∧
      (V ≠ [] → readCargoPackageVersion (m.withValue V) = some V) := by
  obtain ⟨v1, v2, w2, h3, hf⟩ := syncDesktopVersionFiles_versions json root V w w' hpkg
    htauri hrun
  refine ⟨v1, v2, ?_⟩
  obtain ⟨t, m, hr, hm, hw⟩ := syncCargoVersion_result _ V w2 w' hVd h3
  refine ⟨t, m, ?_, hm, hw, ?_⟩
  · rw [← hr, hf]
  · intro hV
    unfold readCargoPackageVersion
    rw [execCargoVersionPattern_replace _ V hV hVq m hm]
    rfl

/-- C1, amended: when `syncDesktopVersionFiles` completes for a non-empty version `V` that
holds neither `"` nor `$`, on a project whose two JSON descriptors are objects that
survive `JSON.stringify` and `JSON.parse`, an immediately following call with the same `V`
completes, makes no `writeFile` call and leaves every file as it is. -/
theorem syncDesktopVersionFiles_idempotent (json : JsonCodec) (root V : Str) (w w' : World)
    (hV : V ≠ []) (hVq : dquote ∉ V) (hVd : '$' ∉ V)
    (hpkg : JsonObjectRoundTrip json w.files (packageJsonPath root) V)
    (htauri : JsonObjectRoundTrip json w.files (tauriConfigPath root) V)
    (hrun : syncDesktopVersionFiles json root V w = (.ok (), w')) :
    syncDesktopVersionFiles json root V w' = (.ok (), w') := by
  obtain ⟨v1, v2, w2, h3, -⟩ := syncDesktopVersionFiles_versions json root V w w' hpkg
    htauri hrun
  have c := syncCargoVersion_idempotent _ V w2 w' hV hVq hVd h3
  unfold syncDesktopVersionFiles
  rw [syncJsonVersion_of_versionIs json _ V w' v1]
  dsimp only
  rw [syncJsonVersion_of_versionIs json _ V w' v2]
  dsimp only
  exact c

theorem jsonObjectRoundTrip_of_eval (json : JsonCodec) (files : Files)
    (path V text : Str) (members : List (Str × JsVal)) (doc' : JsVal)
    (h1 : readText files path = some text) (h2 : json.parse text = some (.object members))
    (h3 : json.parse (json.stringify
      (.object (setMember "version".toList (.string V) members)) ++ ['\n']) = some doc')
    (h4 : readVersion doc' = .ok (some (.string V))) :
    JsonObjectRoundTrip json files path V := by
  intro text' doc ht hd
  rw [h1] at ht
  injection ht with ht
  subst ht
  rw [h2] at hd
  injection hd with hd
  subst hd
  exact ⟨members, rfl, doc', h3, h4⟩

/-- C2 on the project of the repository's test, synchronised to `2.3.4`. -/
theorem syncDesktopVersionFiles_round_trip_witness :
    syncDesktopVersionFiles flatJson "/app".toList "2.3.4".toList testProject =
      (.ok (), testProjectSynced) ∧
    JsonVersionIs flatJson testProjectSynced.files (packageJsonPath "/app".toList)
      "2.3.4".toList ∧
    JsonVersionIs flatJson testProjectSynced.files (tauriConfigPath "/app".toList)
      "2.3.4".toList ∧
    ∃ cargoToml m, readText testProject.files (cargoTomlPath "/app".toList) = some cargoToml ∧
      execCargoVersionPattern cargoToml = some m ∧
      readText testProjectSynced.files (cargoTomlPath "/app".toList) =
        some (m.withValue "2.3.4".toList) ∧
      ("2.3.4".toList ≠ [] →
        readCargoPackageVersion (m.withValue "2.3.4".toList) = some "2.3.4".toList) :=
  ⟨by rfl,
   syncDesktopVersionFiles_round_trip flatJson "/app".toList "2.3.4".toList testProject
    testProjectSynced (by decide) (by decide)
    (jsonObjectRoundTrip_of_eval flatJson _ _ _
      "\x7b\n  \"name\": \"test\",\n  \"version\": \"0.1.0\"\n\x7d\n".toList
      [("name".toList, .string "test".toList), ("version".toList, .string "0.1.0".toList)]
      (.object [("name".toList, .string "test".toList),
        ("version".toList, .string "2.3.4".toList)])
      (by rfl) (by rfl) (by rfl) (by rfl))
    (jsonObjectRoundTrip_of_eval flatJson _ _ _
      "\x7b\n  \"version\": \"0.1.0\"\n\x7d\n".toList
      [("version".toList, .string "0.1.0".toList)]
      (.object [("version".toList, .string "2.3.4".toList)])
      (by rfl) (by rfl) (by rfl) (by rfl))
    (by rfl)⟩

/-- C1 on the project of the repository's test: after the synchronisation to `2.3.4`, a
second call with `2.3.4` completes and changes nothing. -/
theorem syncDesktopVersionFiles_idempotent_witness :
    syncDesktopVersionFiles flatJson "/app".toList "2.3.4".toList testProject =
      (.ok (), testProjectSynced) ∧
    syncDesktopVersionFiles flatJson "/app".toList "2.3.4".toList testProjectSynced =
      (.ok (), testProjectSynced) :=
  ⟨by rfl,
   syncDesktopVersionFiles_idempotent flatJson "/app".toList "2.3.4".toList testProject
    testProjectSynced (by decide) (by decide) (by decide)
    (jsonObjectRoundTrip_of_eval flatJson _ _ _
      "\x7b\n  \"name\": \"test\",\n  \"version\": \"0.1.0\"\n\x7d\n".toList
      [("name".toList, .string "test".toList), ("version".toList, .string "0.1.0".toList)]
      (.object [("name".toList, .string "test".toList),
        ("version".toList, .string "2.3.4".toList)])
      (by rfl) (by rfl) (by rfl) (by rfl))
    (jsonObjectRoundTrip_of_eval flatJson _ _ _
      "\x7b\n  \"version\": \"0.1.0\"\n\x7d\n".toList
      [("version".toList, .string "0.1.0".toList)]
      (.object [("version".toList, .string "2.3.4".toList)])
      (by rfl) (by rfl) (by rfl) (by rfl))
    (by rfl)⟩

/-- C1 as stated fails.  With the empty version the first call completes and the second
throws; with the version `$&` the second call writes `Cargo.toml` again; on a
`package.json` that holds an array the second call writes `package.json` again; and with
a version that holds a double quote the replacement in `Cargo.toml` yields a new text each
time. -/
theorem syncDesktopVersionFiles_second_call_counterexample :
    ((syncDesktopVersionFiles flatJson "/app".toList [] testProject).1 = .ok () ∧
      (syncDesktopVersionFiles flatJson "/app".toList []
        (syncDesktopVersionFiles flatJson "/app".toList [] testProject).2).1 =
        .error (.error
          "Cannot update Cargo package version in /app/src-tauri/Cargo.toml".toList)) ∧
    ((syncDesktopVersionFiles flatJson "/app".toList "$&".toList testProject).1 = .ok () ∧
      (syncDesktopVersionFiles flatJson "/app".toList "$&".toList
        (syncDesktopVersionFiles flatJson "/app".toList "$&".toList testProject).2).2.writes =
        (syncDesktopVersionFiles flatJson "/app".toList "$&".toList testProject).2.writes
          ++ ["/app/src-tauri/Cargo.toml".toList]) ∧
    ((syncDesktopVersionFiles flatJson "/app".toList "2.3.4".toList arrayPackageProject).1 =
        .ok () ∧
      (syncDesktopVersionFiles flatJson "/app".toList "2.3.4".toList
        (syncDesktopVersionFiles flatJson "/app".toList "2.3.4".toList
          arrayPackageProject).2).2.writes =
        (syncDesktopVersionFiles flatJson "/app".toList "2.3.4".toList
          arrayPackageProject).2.writes ++ ["/app/package.json".toList]) ∧
    (replaceCargoVersion testCargoToml "1\"2".toList =
        some "[package]\nname = \"astrbot-desktop-tauri\"\nversion = \"1\"2\"\n".toList ∧
      replaceCargoVersion
        "[package]\nname = \"astrbot-desktop-tauri\"\nversion = \"1\"2\"\n".toList
        "1\"2".toList =
        some "[package]\nname = \"astrbot-desktop-tauri\"\nversion = \"1\"2\"2\"\n".toList) := by
  refine ⟨⟨by rfl, by rfl⟩, ⟨by rfl, by rfl⟩, ⟨by rfl, by rfl⟩, ⟨by rfl, by rfl⟩⟩

/-- C2 as stated fails.  On a `package.json` that holds an array the call completes and
the parsed `package.json` has no version; with the version `$&` the call completes and the
value read back from `Cargo.toml` is not the version; and a version that holds a double
quote is read back cut at that quote. -/
theorem syncDesktopVersionFiles_read_back_counterexample :
    ((syncDesktopVersionFiles flatJson "/app".toList "2.3.4".toList arrayPackageProject).1 =
        .ok () ∧
      readText (syncDesktopVersionFiles flatJson "/app".toList "2.3.4".toList
        arrayPackageProject).2.files (packageJsonPath "/app".toList) = some "[]\n".toList ∧
      (flatJson.parse "[]\n".toList).map readVersion = some (.ok none)) ∧
    ((syncDesktopVersionFiles flatJson "/app".toList "$&".toList testProject).1 = .ok () ∧
      (readText (syncDesktopVersionFiles flatJson "/app".toList "$&".toList
        testProject).2.files (cargoTomlPath "/app".toList)).bind readCargoPackageVersion =
        some "[package]\nname = ".toList) ∧
    ((replaceCargoVersion testCargoToml "1\"2".toList).bind readCargoPackageVersion =
      some "1".toList) := by
  refine ⟨⟨by rfl, by rfl, by rfl⟩, ⟨by rfl, by rfl⟩, by rfl⟩

/-- C3 on a `Cargo.toml` whose package inherits its version from the workspace: the
`[package]` section has no `version = "..."` line, the pattern matches all the same, and
the value replaced is the version of the dependency table `[dependencies.tauri]`. -/
theorem replaceCargoVersion_crosses_section_header :
    replaceCargoVersion workspaceCargoToml "2.3.4".toList =
      some "[package]\nname = \"astrbot-desktop-tauri\"\nversion.workspace = true\n\n[dependencies.tauri]\nversion = \"2.3.4\"\nfeatures = []\n".toList ∧
    (execCargoVersionPattern workspaceCargoToml).map (fun m => m.skipped) =
      some "\nname = \"astrbot-desktop-tauri\"\nversion.workspace = true\n\n[dependencies.tauri]".toList := by
  refine ⟨by rfl, by rfl⟩

/-- C9 on a project whose `tauri.conf.json` is not valid JSON: `package.json` is written
with the new version, then the call fails with the `SyntaxError` of `JSON.parse`, whose
message cannot name `tauri.conf.json`; the file written keeps the new version. -/
theorem syncDesktopVersionFiles_json_failure_names_no_path :
    (syncDesktopVersionFiles flatJson "/app".toList "2.3.4".toList brokenTauriProject).1 =
      .error (.jsonSyntax "\x7b\n  \"version\": \"0.1.0\",\n\x7d\n".toList) ∧
    (JsError.jsonSyntax "\x7b\n  \"version\": \"0.1.0\",\n\x7d\n".toList).namesPath
      (tauriConfigPath "/app".toList) = false ∧
    (syncDesktopVersionFiles flatJson "/app".toList "2.3.4".toList brokenTauriProject).2.writes =
      ["/app/package.json".toList] ∧
    readText
      (syncDesktopVersionFiles flatJson "/app".toList "2.3.4".toList brokenTauriProject).2.files
      (packageJsonPath "/app".toList) =
      some "\x7b\n  \"name\": \"test\",\n  \"version\": \"2.3.4\"\n\x7d\n".toList := by
  refine ⟨by rfl, by decide, by rfl, by rfl⟩

/-! ### The orchestrator -/

theorem mem_andThen_calls (r : Run) (next : World → Run) (c : Call)
    (h : c ∈ (r.andThen next).calls) : c ∈ r.calls ∨ c ∈ (next r.world).calls := by
  unfold Run.andThen at h
  cases ho : r.outcome with
  | error e => rw [ho] at h; exact Or.inl h
  | ok u =>
    rw [ho] at h
    exact List.mem_append.mp h

theorem mem_callCollaborator_calls (call : Call) (f : World → Except JsError World)
    (w : World) (c : Call) (h : c ∈ (callCollaborator call f w).calls) : c = call := by
  unfold callCollaborator at h
  cases hf : f w with
  | error e => rw [hf] at h; simpa using h
  | ok w' => rw [hf] at h; simpa using h

theorem mem_runModeTasks_calls (ext : Collaborators) (mode : Str) (w : World) (c : Call)
    (h : c ∈ (runModeTasks ext mode w).calls) : c = .prepareWebui ∨ c = .prepareBackend := by
  unfold runModeTasks at h
  split at h
  · simp [Run.skip] at h
  split at h
  · exact Or.inl (mem_callCollaborator_calls _ _ _ _ h)
  split at h
  · exact Or.inr (mem_callCollaborator_calls _ _ _ _ h)
  split at h
  · rcases mem_andThen_calls _ _ _ h with h | h
    · exact Or.inl (mem_callCollaborator_calls _ _ _ _ h)
    · exact Or.inr (mem_callCollaborator_calls _ _ _ _ h)
  · simp at h

theorem testLeadingV_normalizeDesktopVersionOverride (version : Option Str) :
    testLeadingV (normalizeDesktopVersionOverride version) = false := by
  unfold normalizeDesktopVersionOverride
  generalize (match version with | some s => trim s | none => []) = trimmed
  simp only
  split
  · rfl
  · split
    · rename_i h
      match trimmed, h with
      | c :: d :: rest, h =>
        simp only [testLeadingV, Bool.and_eq_true] at h
        have hd := h.2
        cases rest with
        | nil => rfl
        | cons e rest' =>
          simp only [List.drop_succ_cons, List.drop_zero, testLeadingV]
          have : (d == 'v' || d == 'V') = false := by
            unfold isJsDigit at hd
            simp only [Bool.and_eq_true, decide_eq_true_eq] at hd
            have h1 : d ≠ 'v' := by rintro rfl; exact absurd hd.2 (by decide)
            have h2 : d ≠ 'V' := by rintro rfl; exact absurd hd.2 (by decide)
            simp [h1, h2]
          simp [this]
    · rename_i h
      simpa using h

theorem mem_main_calls_of_override (ext : Collaborators) (json : JsonCodec)
    (inv : Invocation) (w : World) (hov : inv.desktopVersionOverride ≠ []) (c : Call)
    (h : c ∈ (main ext json inv w).calls) :
    c = .mkdirResources ∨ c = .ensureSourceRepo ∨ c = .ensureStartupShellAssets ∨
      (c = .readAstrbotVersionFromPyproject ∧ inv.mode ≠ "version".toList) ∨
      c = .syncDesktopVersionFiles inv.desktopVersionOverride ∨
      c = .prepareWebui ∨ c = .prepareBackend := by
  unfold main at h
  simp only [hov, ne_eq, not_false_eq_true, if_true, decide_False, Bool.or_false,
    decide_not, Bool.not_eq_true', decide_eq_false_iff_not] at h
  rcases mem_andThen_calls _ _ _ h with h | h
  · exact Or.inl (mem_callCollaborator_calls _ _ _ _ h)
  rcases mem_andThen_calls _ _ _ h with h | h
  · split at h
    · exact Or.inr (Or.inl (mem_callCollaborator_calls _ _ _ _ h))
    · simp [Run.skip] at h
  rcases mem_andThen_calls _ _ _ h with h | h
  · exact Or.inr (Or.inr (Or.inl (mem_callCollaborator_calls _ _ _ _ h)))
  rcases mem_andThen_calls _ _ _ h with h | h
  · split at h
    · rename_i hmode
      unfold callReadVersion at h
      have hc : c = .readAstrbotVersionFromPyproject := by
        split at h <;> simpa using h
      exact Or.inr (Or.inr (Or.inr (Or.inl ⟨hc, hmode⟩)))
    · simp [Run.skip] at h
  rcases mem_andThen_calls _ _ _ h with h | h
  · refine Or.inr (Or.inr (Or.inr (Or.inr (Or.inl ?_))))
    simpa [callSync] using h
  · rcases mem_runModeTasks_calls _ _ _ _ h with h | h
    · exact Or.inr (Or.inr (Or.inr (Or.inr (Or.inr (Or.inl h)))))
    · exact Or.inr (Or.inr (Or.inr (Or.inr (Or.inr (Or.inr h)))))

theorem sync_call_of_override (ext : Collaborators) (json : JsonCodec)
    (inv : Invocation) (w : World) (hov : inv.desktopVersionOverride ≠ []) (v : Str)
    (hmem : Call.syncDesktopVersionFiles v ∈ (main ext json inv w).calls) :
    v = inv.desktopVersionOverride := by
  rcases mem_main_calls_of_override ext json inv w hov _ hmem with
    h | h | h | h | h | h | h
  · cases h
  · cases h
  · cases h
  · cases h.1
  · injection h
  · cases h
  · cases h

theorem andThen_ok_calls (cs : List Call) (w : World) (next : World → Run) :
    (Run.andThen ⟨cs, .ok (), w⟩ next).calls = cs ++ (next w).calls := rfl

theorem callSync_andThen_calls (ext : Collaborators) (json : JsonCodec) (root v mode : Str)
    (w : World) :
    ∃ tail, ((callSync json root v w).andThen (fun w => runModeTasks ext mode w)).calls =
        Call.syncDesktopVersionFiles v :: tail ∧
      ∀ c ∈ tail, c = Call.prepareWebui ∨ c = Call.prepareBackend := by
  unfold Run.andThen
  cases h : (callSync json root v w).outcome with
  | error e => exact ⟨[], by simp [callSync], by simp⟩
  | ok u =>
    refine ⟨(runModeTasks ext mode (callSync json root v w).world).calls, by simp [callSync],
      fun c hc => mem_runModeTasks_calls _ _ _ _ hc⟩

/-- C8, amended: with a non-empty normalized override, `main` never invokes
`readAstrbotVersionFromPyproject` in mode `version`, and every synchronisation it makes is
to the override.  In every other mode, once the collaborators before it have succeeded,
`main` invokes the reader exactly once, after `ensureSourceRepo` and
`ensureStartupShellAssets` (to detect drift): when that read fails, for instance on a
missing manifest, the invocation fails with the reader's error before any
synchronisation; when it succeeds, the synchronisation to the override follows and the
reader is not invoked again. -/
theorem main_override_reader_use (ext : Collaborators) (json : JsonCodec)
    (inv : Invocation) (w : World) (hov : inv.desktopVersionOverride ≠ []) :
    (inv.mode = "version".toList →
      Call.readAstrbotVersionFromPyproject ∉ (main ext json inv w).calls) ∧
    (∀ v, Call.syncDesktopVersionFiles v ∈ (main ext json inv w).calls →
      v = inv.desktopVersionOverride) ∧
    (inv.mode ≠ "version".toList → ∀ w1 w2 w3 e,
      ext.mkdirResources w = .ok w1 → ext.ensureSourceRepo w1 = .ok w2 →
      ext.ensureStartupShellAssets w2 = .ok w3 →
      readAstrbotVersionFromPyproject w3.files inv.sourceDir = .error e →
      (main ext json inv w).outcome = .error e ∧
      (main ext json inv w).calls = [.mkdirResources, .ensureSourceRepo,
        .ensureStartupShellAssets, .readAstrbotVersionFromPyproject]) ∧
    (inv.mode ≠ "version".toList → ∀ w1 w2 w3 sourceVersion,
      ext.mkdirResources w = .ok w1 → ext.ensureSourceRepo w1 = .ok w2 →
      ext.ensureStartupShellAssets w2 = .ok w3 →
      readAstrbotVersionFromPyproject w3.files inv.sourceDir = .ok sourceVersion →
      ∃ tail, (main ext json inv w).calls = [.mkdirResources, .ensureSourceRepo,
          .ensureStartupShellAssets, .readAstrbotVersionFromPyproject,
          .syncDesktopVersionFiles inv.desktopVersionOverride] ++ tail ∧
        (∀ c ∈ tail, c = Call.prepareWebui ∨ c = Call.prepareBackend) ∧
        (main ext json inv w).calls.count .readAstrbotVersionFromPyproject = 1) := by
  refine ⟨?_, ?_, ?_, ?_⟩
  · intro hmode hmem
    rcases mem_main_calls_of_override ext json inv w hov _ hmem with
      h | h | h | h | h | h | h
    · cases h
    · cases h
    · cases h
    · exact h.2 hmode
    · cases h
    · cases h
    · cases h
  · intro v hmem
    exact sync_call_of_override ext json inv w hov v hmem
  · intro hmode w1 w2 w3 e h1 h2 h3 hread
    unfold main
    simp only [hov, hmode, ne_eq, not_false_eq_true, if_true, decide_True, Bool.true_or,
      decide_False, Bool.or_false, Run.andThen, callCollaborator, callReadVersion, h1, h2,
      h3, hread, List.cons_append, List.nil_append, and_self]
  · intro hmode w1 w2 w3 sv h1 h2 h3 hread
    obtain ⟨tail, htail, hmem⟩ := callSync_andThen_calls ext json inv.projectRoot
      inv.desktopVersionOverride inv.mode w3
    have hcalls : (main ext json inv w).calls = [.mkdirResources, .ensureSourceRepo,
        .ensureStartupShellAssets, .readAstrbotVersionFromPyproject,
        .syncDesktopVersionFiles inv.desktopVersionOverride] ++ tail := by
      rw [List.cons_append, List.cons_append, List.cons_append, List.cons_append,
        List.cons_append, List.nil_append, ← htail]
      unfold main
      simp only [hov, hmode, ne_eq, not_false_eq_true, if_true, decide_True, Bool.true_or,
        callCollaborator, callReadVersion, h1, h2, h3, hread, andThen_ok_calls,
        List.cons_append, List.nil_append]
    refine ⟨tail, hcalls, hmem, ?_⟩
    rw [hcalls]
    have htc : tail.count Call.readAstrbotVersionFromPyproject = 0 := by
      apply List.count_eq_zero_of_not_mem
      intro hc
      rcases hmem _ hc with h | h <;> cases h
    simp [List.count_cons, htc]

/-- C8 with `ASTRBOT_DESKTOP_VERSION=v2.3.4`: in mode `version` the reader is not invoked
and the project, which has no upstream manifest, is synchronised to `2.3.4`; in mode `all`
with an upstream manifest the reader is invoked once, before the synchronisation to
`2.3.4`. -/
theorem main_override_reader_use_witness :
    overrideVersionInvocation.desktopVersionOverride = "2.3.4".toList ∧
    Call.readAstrbotVersionFromPyproject ∉
      (main idleCollaborators flatJson overrideVersionInvocation testProject).calls ∧
    (main idleCollaborators flatJson overrideVersionInvocation testProject).calls =
      [.mkdirResources, .ensureStartupShellAssets, .syncDesktopVersionFiles "2.3.4".toList] ∧
    (main idleCollaborators flatJson overrideVersionInvocation testProject).outcome = .ok () ∧
    (main idleCollaborators flatJson overrideAllInvocation prefixedSourceProject).calls =
      [.mkdirResources, .ensureSourceRepo, .ensureStartupShellAssets,
        .readAstrbotVersionFromPyproject, .syncDesktopVersionFiles "2.3.4".toList,
        .prepareWebui, .prepareBackend] ∧
    (main idleCollaborators flatJson overrideAllInvocation prefixedSourceProject).calls.count
      .readAstrbotVersionFromPyproject = 1 :=
  ⟨by decide,
   (main_override_reader_use idleCollaborators flatJson overrideVersionInvocation testProject
      (by decide)).1 (by decide),
   by rfl, by rfl, by rfl,
   ((main_override_reader_use idleCollaborators flatJson overrideAllInvocation
      prefixedSourceProject (by decide)).2.2.2 (by decide) prefixedSourceProject
      prefixedSourceProject prefixedSourceProject "v1.2.3".toList rfl rfl rfl
      (by rfl)).elim (fun _ h => h.2.2)⟩

/-- C8 as stated fails: in mode `all` with `ASTRBOT_DESKTOP_VERSION=v2.3.4` and no upstream
manifest in the source directory, `main` does invoke the reader, and the missing
manifest fails the invocation before any synchronisation. -/
theorem main_override_reads_manifest_counterexample :
    overrideAllInvocation.desktopVersionOverride = "2.3.4".toList ∧
    (main idleCollaborators flatJson overrideAllInvocation testProject).calls =
      [.mkdirResources, .ensureSourceRepo, .ensureStartupShellAssets,
        .readAstrbotVersionFromPyproject] ∧
    (main idleCollaborators flatJson overrideAllInvocation testProject).outcome =
      .error (.error
        "Cannot find pyproject.toml in source directory: /app/vendor/AstrBot".toList) := by
  refine ⟨by decide, by rfl, by rfl⟩

/-- C7, amended: the version `main` hands to `syncDesktopVersionFiles` is the normalized
override when that is non-empty, and then it does not begin with `v` or `V` followed by a
digit; otherwise it is the value `readAstrbotVersionFromPyproject` returned for the source
directory, exactly as read. -/
theorem main_synchronized_version (ext : Collaborators) (json : JsonCodec)
    (inv : Invocation) (w : World) (v : Str)
    (h : Call.syncDesktopVersionFiles v ∈ (main ext json inv w).calls) :
    (inv.desktopVersionOverride ≠ [] →
      v = inv.desktopVersionOverride ∧ testLeadingV v = false) ∧
    (inv.desktopVersionOverride = [] → ∃ w1 w2 w3,
      ext.mkdirResources w = .ok w1 ∧ ext.ensureSourceRepo w1 = .ok w2 ∧
      ext.ensureStartupShellAssets w2 = .ok w3 ∧
      readAstrbotVersionFromPyproject w3.files inv.sourceDir = .ok v) := by
  refine ⟨?_, ?_⟩
  · intro hov
    have hv := sync_call_of_override ext json inv w hov v h
    refine ⟨hv, ?_⟩
    rw [hv]
    exact testLeadingV_normalizeDesktopVersionOverride _
  · intro hov
    unfold main at h
    simp only [hov, ne_eq, not_true_eq_false, if_false, decide_True, Bool.or_true,
      if_true] at h
    cases h1 : ext.mkdirResources w with
    | error e => simp [Run.andThen, callCollaborator, h1] at h
    | ok w1 =>
      cases h2 : ext.ensureSourceRepo w1 with
      | error e => simp [Run.andThen, callCollaborator, h1, h2] at h
      | ok w2 =>
        cases h3 : ext.ensureStartupShellAssets w2 with
        | error e => simp [Run.andThen, callCollaborator, h1, h2, h3] at h
        | ok w3 =>
          cases h4 : readAstrbotVersionFromPyproject w3.files inv.sourceDir with
          | error e => simp [Run.andThen, callCollaborator, h1, h2, h3, h4] at h
          | ok ver =>
            refine ⟨w1, w2, w3, rfl, h2, h3, ?_⟩
            simp only [Run.andThen, callCollaborator, h1, h2, h3, h4, List.cons_append,
              List.nil_append, List.mem_cons, false_or] at h
            have hs : Call.syncDesktopVersionFiles v ∈
                ((callSync json inv.projectRoot ver w3).andThen
                  (fun w => runModeTasks ext inv.mode w)).calls := by
              simpa [Run.andThen] using h
            rcases mem_andThen_calls _ _ _ hs with hs | hs
            · have : v = ver := by simpa [callSync] using hs
              rw [this]
              exact h4
            · rcases mem_runModeTasks_calls _ _ _ _ hs with hs | hs <;> cases hs

/-- C7 with `ASTRBOT_DESKTOP_VERSION=v2.3.4`: the version synchronised is `2.3.4`, the
normalized override, without the prefix. -/
theorem main_synchronized_version_witness :
    Call.syncDesktopVersionFiles "2.3.4".toList ∈
      (main idleCollaborators flatJson overrideVersionInvocation testProject).calls ∧
    "2.3.4".toList = overrideVersionInvocation.desktopVersionOverride ∧
    testLeadingV "2.3.4".toList = false :=
  ⟨by decide,
   (main_synchronized_version idleCollaborators flatJson overrideVersionInvocation
      testProject "2.3.4".toList (by decide)).1 (by decide)⟩

/-- C7 as stated fails: without an override, an upstream manifest whose `[project]`
version is written `v1.2.3` makes `main` hand `v1.2.3`, prefix included, to
`syncDesktopVersionFiles`. -/
theorem main_manifest_version_keeps_prefix_counterexample :
    manifestVersionInvocation.desktopVersionOverride = [] ∧
    (main idleCollaborators flatJson manifestVersionInvocation prefixedSourceProject).calls =
      [.mkdirResources, .ensureSourceRepo, .ensureStartupShellAssets,
        .readAstrbotVersionFromPyproject, .syncDesktopVersionFiles "v1.2.3".toList] ∧
    (main idleCollaborators flatJson manifestVersionInvocation prefixedSourceProject).outcome =
      .ok () ∧
    testLeadingV "v1.2.3".toList = true := by
  refine ⟨by decide, by rfl, by rfl, by decide⟩

/-! ### `normalizeDesktopVersionOverride` -/

/-- C6: `normalizeDesktopVersionOverride` trims and strips a leading v.  For every string
`s` the result is `trim s` without its first character when `trim s` begins with `v` or
`V` immediately followed by a digit, is `trim s` otherwise, and is empty when `s` is empty
or white space only; the three documented examples hold. -/
theorem normalizeDesktopVersionOverride_trims_and_strips (s : Str) :
    (∀ c d rest, trim s = c :: d :: rest → (c = 'v' ∨ c = 'V') → isJsDigit d = true →
      normalizeDesktopVersionOverride (some s) = d :: rest) ∧
    ((∀ c d rest, trim s = c :: d :: rest → (c = 'v' ∨ c = 'V') → isJsDigit d = false) →
      normalizeDesktopVersionOverride (some s) = trim s) ∧
    ((∀ c ∈ s, isJsWhiteSpace c = true) → normalizeDesktopVersionOverride (some s) = []) ∧
    normalizeDesktopVersionOverride (some " v1.2.3 ".toList) = "1.2.3".toList ∧
    normalizeDesktopVersionOverride (some "2.0.0".toList) = "2.0.0".toList ∧
    normalizeDesktopVersionOverride (some "   ".toList) = [] := by
  refine ⟨?_, ?_, ?_, by decide, by decide, by decide⟩
  · intro c d rest ht hc hd
    unfold normalizeDesktopVersionOverride
    simp only [ht]
    rcases hc with rfl | rfl <;> simp [testLeadingV, hd]
  · intro h
    unfold normalizeDesktopVersionOverride
    simp only
    by_cases h0 : trim s = []
    · simp [h0]
    · rw [if_neg h0]
      match ht : trim s with
      | [] => exact absurd ht h0
      | [c] => simp [testLeadingV]
      | c :: d :: rest =>
        by_cases hc : c = 'v' ∨ c = 'V'
        · have hd := h c d rest ht hc
          simp [testLeadingV, hd]
        · have : (c == 'v' || c == 'V') = false := by
            simpa [not_or] using hc
          simp [testLeadingV, this]
  · intro h
    unfold normalizeDesktopVersionOverride
    simp [trim_eq_nil_of_all_whiteSpace s h]

theorem getProperty_platformMap (platform : Str) (hp : platform ∉ objectPrototypeKeys) :
    getProperty platformMap platform =
      if platform = "linux".toList then .own "linux".toList
      else if platform = "darwin".toList then .own "mac".toList
      else if platform = "win32".toList then .own "windows".toList
      else .undefined := by
  unfold getProperty platformMap
  by_cases h1 : platform = "linux".toList
  · subst h1; rfl
  by_cases h2 : platform = "darwin".toList
  · subst h2; rfl
  by_cases h3 : platform = "win32".toList
  · subst h3; rfl
  simp only [List.lookup, beq_eq_false_iff_ne.mpr h1, beq_eq_false_iff_ne.mpr h2,
    beq_eq_false_iff_ne.mpr h3, if_neg hp, if_neg h1, if_neg h2, if_neg h3]

theorem getProperty_archMap (arch : Str) (ha : arch ∉ objectPrototypeKeys) :
    getProperty archMap arch =
      if arch = "x64".toList then .own "amd64".toList
      else if arch = "arm64".toList then .own "arm64".toList
      else .undefined := by
  unfold getProperty archMap
  by_cases h1 : arch = "x64".toList
  · subst h1; rfl
  by_cases h2 : arch = "arm64".toList
  · subst h2; rfl
  simp only [List.lookup, beq_eq_false_iff_ne.mpr h1, beq_eq_false_iff_ne.mpr h2,
    if_neg ha, if_neg h1, if_neg h2]

theorem unsupportedPlatform_ne_unsupportedMapping (pair key : Str) :
    (Except.error ("Unsupported platform/arch for python-build-standalone: ".toList ++ pair)
        : Except Str Lookup) ≠
      .error ("Unsupported python-build-standalone mapping: ".toList ++ key) := by
  intro h
  injection h with h
  have h13 := congrArg (fun l => l.get? 13) h
  simp at h13

theorem resolvePbsTarget_of_unsupported (platform arch : Str)
    (h : (getProperty platformMap platform).falsy = true ∨
      (getProperty archMap arch).falsy = true) :
    resolvePbsTarget platform arch =
      .error ("Unsupported platform/arch for python-build-standalone: ".toList
        ++ platform ++ "/".toList ++ arch) := by
  unfold resolvePbsTarget
  have h' : ((getProperty platformMap platform).falsy ||
      (getProperty archMap arch).falsy) = true := by
    rcases h with h | h <;> simp [h]
  simp only [h', if_true]

theorem pbsTargetTable_lookup (platform arch : Str) :
    pbsTargetTable.lookup (platform, arch) =
      if platform = "linux".toList ∧ arch = "x64".toList then
        some "x86_64-unknown-linux-gnu".toList
      else if platform = "linux".toList ∧ arch = "arm64".toList then
        some "aarch64-unknown-linux-gnu".toList
      else if platform = "darwin".toList ∧ arch = "x64".toList then
        some "x86_64-apple-darwin".toList
      else if platform = "darwin".toList ∧ arch = "arm64".toList then
        some "aarch64-apple-darwin".toList
      else if platform = "win32".toList ∧ arch = "x64".toList then
        some "x86_64-pc-windows-msvc".toList
      else if platform = "win32".toList ∧ arch = "arm64".toList then
        some "aarch64-pc-windows-msvc".toList
      else none := by
  unfold pbsTargetTable
  simp only [lookup_cons_ite, Prod.mk.injEq]
  rfl

/-- C10: read as a function of `(process.platform, process.arch)`, `resolvePbsTarget` is
total over the six-entry table: it returns the table's target when the pair is in the
table, which is exactly when the platform is one of linux, darwin, win32 and the
architecture one of x64, arm64; for every other pair it fails with the unsupported
platform/arch error naming the pair, so the second error (unsupported mapping) is never
raised.  The values of `process.platform` and `process.arch` are operating-system and CPU
names, never the name of a member of `Object.prototype`. -/
theorem resolvePbsTarget_total_over_table (platform arch : Str)
    (hp : platform ∉ objectPrototypeKeys) (ha : arch ∉ objectPrototypeKeys) :
    resolvePbsTarget platform arch =
      (match pbsTargetTable.lookup (platform, arch) with
       | some target => .ok (.own target)
       | none => .error ("Unsupported platform/arch for python-build-standalone: ".toList
            ++ platform ++ "/".toList ++ arch)) ∧
    ((pbsTargetTable.lookup (platform, arch)).isSome = true ↔
      platform ∈ ["linux".toList, "darwin".toList, "win32".toList] ∧
        arch ∈ ["x64".toList, "arm64".toList]) ∧
    (∀ key, resolvePbsTarget platform arch ≠
      .error ("Unsupported python-build-standalone mapping: ".toList ++ key)) := by
  have hP := getProperty_platformMap platform hp
  have hA := getProperty_archMap arch ha
  have closed : ∀ p a t, resolvePbsTarget p a = .ok (.own t) →
      ∀ key, resolvePbsTarget p a ≠
        .error ("Unsupported python-build-standalone mapping: ".toList ++ key) := by
    intro p a t h key h2
    rw [h] at h2
    cases h2
  have unsupported : (getProperty platformMap platform).falsy = true ∨
      (getProperty archMap arch).falsy = true →
      pbsTargetTable.lookup (platform, arch) = none →
      ¬ (platform ∈ ["linux".toList, "darwin".toList, "win32".toList] ∧
        arch ∈ ["x64".toList, "arm64".toList]) →
      (resolvePbsTarget platform arch =
        (match pbsTargetTable.lookup (platform, arch) with
         | some target => .ok (.own target)
         | none => .error ("Unsupported platform/arch for python-build-standalone: ".toList
              ++ platform ++ "/".toList ++ arch)) ∧
      ((pbsTargetTable.lookup (platform, arch)).isSome = true ↔
        platform ∈ ["linux".toList, "darwin".toList, "win32".toList] ∧
          arch ∈ ["x64".toList, "arm64".toList]) ∧
      (∀ key, resolvePbsTarget platform arch ≠
        .error ("Unsupported python-build-standalone mapping: ".toList ++ key))) := by
    intro h hl hn
    have hr := resolvePbsTarget_of_unsupported platform arch h
    refine ⟨by rw [hr, hl], by rw [hl]; simpa using hn, fun key => ?_⟩
    rw [hr, List.append_assoc, List.append_assoc]
    exact unsupportedPlatform_ne_unsupportedMapping _ key
  by_cases p1 : platform = "linux".toList
  · by_cases a1 : arch = "x64".toList
    · subst p1 a1; exact ⟨rfl, by decide, closed _ _ _ rfl⟩
    by_cases a2 : arch = "arm64".toList
    · subst p1 a2; exact ⟨rfl, by decide, closed _ _ _ rfl⟩
    refine unsupported (Or.inr ?_) ?_ ?_
    · rw [hA, if_neg a1, if_neg a2]; rfl
    · rw [pbsTargetTable_lookup]; simp only [a1, a2, and_false, if_false]
    · simp only [List.mem_cons, List.mem_singleton, a1, a2, List.not_mem_nil, or_self,
        and_false, not_false_eq_true]
  by_cases p2 : platform = "darwin".toList
  · by_cases a1 : arch = "x64".toList
    · subst p2 a1; exact ⟨rfl, by decide, closed _ _ _ rfl⟩
    by_cases a2 : arch = "arm64".toList
    · subst p2 a2; exact ⟨rfl, by decide, closed _ _ _ rfl⟩
    refine unsupported (Or.inr ?_) ?_ ?_
    · rw [hA, if_neg a1, if_neg a2]; rfl
    · rw [pbsTargetTable_lookup]; simp only [a1, a2, and_false, if_false]
    · simp only [List.mem_cons, List.mem_singleton, a1, a2, List.not_mem_nil, or_self,
        and_false, not_false_eq_true]
  by_cases p3 : platform = "win32".toList
  · by_cases a1 : arch = "x64".toList
    · subst p3 a1; exact ⟨rfl, by decide, closed _ _ _ rfl⟩
    by_cases a2 : arch = "arm64".toList
    · subst p3 a2; exact ⟨rfl, by decide, closed _ _ _ rfl⟩
    refine unsupported (Or.inr ?_) ?_ ?_
    · rw [hA, if_neg a1, if_neg a2]; rfl
    · rw [pbsTargetTable_lookup]; simp only [a1, a2, and_false, if_false]
    · simp only [List.mem_cons, List.mem_singleton, a1, a2, List.not_mem_nil, or_self,
        and_false, not_false_eq_true]
  refine unsupported (Or.inl ?_) ?_ ?_
  · rw [hP, if_neg p1, if_neg p2, if_neg p3]; rfl
  · rw [pbsTargetTable_lookup]; simp only [p1, p2, p3, false_and, if_false]
  · simp only [List.mem_cons, List.mem_singleton, p1, p2, p3, List.not_mem_nil, or_self,
      false_and, not_false_eq_true]

/-- C10 at a concrete host: on linux/x64 the target is `x86_64-unknown-linux-gnu`. -/
theorem resolvePbsTarget_total_over_table_witness :
    "linux".toList ∉ objectPrototypeKeys ∧ "x64".toList ∉ objectPrototypeKeys ∧
    resolvePbsTarget "linux".toList "x64".toList =
      .ok (.own "x86_64-unknown-linux-gnu".toList) ∧
    resolvePbsTarget "sunos".toList "x64".toList =
      .error ("Unsupported platform/arch for python-build-standalone: sunos/x64".toList) :=
  ⟨by decide, by decide,
   (resolvePbsTarget_total_over_table "linux".toList "x64".toList (by decide) (by decide)).1,
   (resolvePbsTarget_total_over_table "sunos".toList "x64".toList (by decide) (by decide)).1⟩

/-! ### The tests of the repository, run on the model -/

/-- The assertions of `version-sync.test.mjs` hold of the model: the three normalisation
examples, the version read from the test manifest, and the three descriptors after
`syncDesktopVersionFiles` (the last with the pattern `/version\s*=\s*"2.3.4"/` read as the
value the Cargo pattern finds). -/
theorem version_sync_tests :
    normalizeDesktopVersionOverride (some " v1.2.3 ".toList) = "1.2.3".toList ∧
    normalizeDesktopVersionOverride (some "2.0.0".toList) = "2.0.0".toList ∧
    normalizeDesktopVersionOverride (some "   ".toList) = [] ∧
    readAstrbotVersionFromPyproject [("/tmp/astrbot-version/pyproject.toml".toList, testPyproject)]
      "/tmp/astrbot-version".toList = .ok "1.9.1".toList ∧
    syncDesktopVersionFiles flatJson "/app".toList "2.3.4".toList testProject =
      (.ok (), testProjectSynced) ∧
    (readText testProjectSynced.files (cargoTomlPath "/app".toList)).bind
      readCargoPackageVersion = some "2.3.4".toList := by
  refine ⟨by rfl, by rfl, by rfl, by rfl, by rfl, by rfl⟩

/-- The Cargo step names the file in both of its errors and writes nothing when it
fails. -/
theorem syncCargoVersion_error_names_path (path V : Str) (w w' : World) (e : JsError)
    (h : syncCargoVersion path V w = (.error e, w')) :
    e.namesPath path = true ∧ w' = w := by
  unfold syncCargoVersion at h
  cases h1 : readText w.files path with
  | none =>
    rw [h1] at h
    simp only [Prod.mk.injEq, Except.error.injEq] at h
    obtain ⟨rfl, rfl⟩ := h
    exact ⟨by simp [JsError.namesPath], rfl⟩
  | some t =>
    rw [h1] at h
    dsimp only at h
    cases h2 : replaceCargoVersion t V with
    | none =>
      rw [h2] at h
      simp only [Prod.mk.injEq, Except.error.injEq] at h
      obtain ⟨rfl, rfl⟩ := h
      refine ⟨?_, rfl⟩
      simp only [JsError.namesPath, decide_eq_true_eq]
      exact (List.suffix_append _ _).isInfix
    | some t' =>
      rw [h2] at h
      dsimp only at h
      split at h <;> cases h

/-- `split(/\r?\n/)` on mixed line ends: `\r\n` and `\n` separate, a lone `\r` does not. -/
theorem splitLines_mixed_line_ends :
    splitLines "a\r\nb\n\rc\r".toList = ["a".toList, "b".toList, "\rc\r".toList] := by
  decide

/-- A name inherited from `Object.prototype`, which `process.platform` never is, reads as
a truthy member of `platformMap`, and only then is the second error raised. -/
theorem resolvePbsTarget_inherited_member :
    resolvePbsTarget "constructor".toList "x64".toList =
      .error ("Unsupported python-build-standalone mapping: function Object() \x7b [native code] \x7d/amd64".toList) := by
  rfl

end AstrBotDesktop
